import Mathlib

/-!
# The CDC logging pipeline of `main/tusb_serial_device_main.c`

A shallow embedding of the producer/consumer pipeline of the firmware:

* `cdc_log` renders a tagged message into the static scratch buffers
  `format_buf` / `log_buf` and splits it into chunks that it posts on
  `usb_cdc_rx_queue`;
* `tinyusb_cdc_rx_callback` copies received bytes into one chunk and posts it;
* `cdc_process_task` takes chunks off the queue and writes them to the CDC
  endpoint.

Conventions of the model:

* The program state is explicit (`State`): the queue, the heap, the static
  buffers.  Pointers are natural numbers, `0` is `NULL`; a successful `malloc`
  returns the fresh identifier `State.brk`.  Bytes are `Char`s.
* Everything the C code obtains from FreeRTOS, the allocator or TinyUSB (the
  result of a semaphore take, of a queue send, of `malloc`, of
  `xPortInIsrContext`, the bytes read from the endpoint) is an input of the
  model (`LogEnv`, `RxEnv`): other tasks and interrupts may fill or drain the
  queue while a producer runs, so the result of a send is not a function of
  the state.  `queue_has_room` is the answer a send gets when nothing else runs.
* Every call of such a primitive is recorded, in program order, with its
  arguments and its result, in `State.trace`.
* A store through `NULL`, an access to a block that is not live and a `free`
  of such a block end the run with a `Fault`.  A read past the end of
  `log_buf` does not: it yields the bytes that lie behind the buffer
  (`State.past_log_buf`), and the copy is recorded in the trace like any other.
* `CONFIG_TINYUSB_CDC_RX_BUFSIZE` comes from the build configuration; it is
  the parameter `C`.  The loop of `cdc_log` takes a step budget `fuel`.
* `vsnprintf` is modelled for the conversions `%s`, `%d`, `%c` and `%%`
  (`vformat_scan`); the split, the ownership of the chunks and the recorded
  calls depend on the rendered text only through its length.
-/

namespace TusbCdc

/-! ## Data model -/

/-- The terminating byte of a C string. -/
def NUL : Char := Char.ofNat 0

/-- The line feed that `cdc_log` appends to every message. -/
def LF : Char := Char.ofNat 10

/-- Size of `log_buf` (`static char log_buf[0x800]`). -/
def LOG_BUF_SIZE : Nat := 0x800

/-- Size of `format_buf` (`static char format_buf[0x100]`). -/
def FORMAT_BUF_SIZE : Nat := 0x100

/-- The tick count `0xfffffffful` the code passes to every blocking call. -/
def MAX_DELAY : Nat := 0xffffffff

/-- Number of items of `usb_cdc_rx_queue` (`xQueueCreate(0x4000, ...)` in `app_main`). -/
def QUEUE_LENGTH : Nat := 0x4000

/-- The queue item `typedef struct { uint8_t* buf; size_t len; } buf_len_t`. -/
structure buf_len_t where
  buf : Nat
  len : Nat
deriving DecidableEq, Repr

/-- One variadic argument of `cdc_log`. -/
inductive va_arg where
  | str (s : List Char)
  | int (n : Int)
  | chr (c : Char)
deriving DecidableEq, Repr

/-- A call of an external primitive, with its arguments and its result. -/
inductive Event where
  | xSemaphoreTake (ticks : Nat) (res : Bool)
  | xSemaphoreGive
  | malloc (size : Nat) (res : Nat)
  | memcpy_log_buf (dst : Nat) (offset : Nat) (n : Nat)
  | memcpy_buf (dst : Nat) (n : Nat)
  | xQueueSendFromISR (item : buf_len_t) (res : Bool)
  | xQueueSend (item : buf_len_t) (ticks : Nat) (res : Bool)
  | free (p : Nat)
  | portYIELD_FROM_ISR
  | vTaskDelay (ticks : Nat)
  | xQueueReceive (ticks : Nat) (res : Option buf_len_t)
  | tinyusb_cdcacm_read (size : Nat) (res : Option (List Char))
  | tinyusb_cdcacm_write_queue (data : List Char)
  | tinyusb_cdcacm_write_flush (ticks : Nat)
deriving DecidableEq, Repr

/-- The globals of the program and the heap.
`past_log_buf i` is the byte stored `i` bytes after the end of `log_buf`
(memory the program does not own as part of `log_buf`; which object lies
there is decided by the linker). -/
@[ext]
structure State where
  usb_cdc_rx_queue : List buf_len_t
  heap : List (Nat × List Char)
  brk : Nat
  format_buf : List Char
  log_buf : List Char
  past_log_buf : Nat → Char
  rx_callback_buf : List Char
  trace : List Event

/-- A memory error that stops the program. -/
inductive Fault where
  | null_store (n : Nat)
  | wild_store (p : Nat)
  | heap_overflow (p : Nat)
  | bad_free (p : Nat)
  | bad_read (p : Nat)
deriving DecidableEq, Repr

/-- How a call ends: it returns (with the value of the `return` statement, if
it has one), it stops at a memory error, or the model's step budget ran out. -/
inductive Outcome where
  | returned (s : State) (ret : Option Nat)
  | fault (f : Fault) (s : State)
  | out_of_fuel (s : State)

/-- The state in which a call ended. -/
def Outcome.state : Outcome → State
  | .returned s _ => s
  | .fault _ s => s
  | .out_of_fuel s => s

/-- What the environment answers during one call of `cdc_log`: `take` is the
result of `xSemaphoreTake`, `in_isr` that of `xPortInIsrContext` (the same at
every iteration of the call); the `k`-th chunk of the call gets the answers at
index `k`: whether its `malloc` succeeds, whether its send succeeds, whether
its send from the ISR woke a task of higher priority. -/
structure LogEnv where
  take : Bool
  in_isr : Bool
  malloc_ok : Nat → Bool
  send_ok : Nat → Bool
  woken : Nat → Bool

/-- What the environment answers during one call of `tinyusb_cdc_rx_callback`:
`read` is `none` when `tinyusb_cdcacm_read` does not return `ESP_OK`, and the
bytes it delivered otherwise. -/
structure RxEnv where
  read : Option (List Char)
  in_isr : Bool
  malloc_ok : Bool
  send_ok : Bool
  woken : Bool

/-- The state at reset: empty queue and heap, zeroed static buffers. -/
def State.init : State where
  usb_cdc_rx_queue := []
  heap := []
  brk := 1
  format_buf := List.replicate FORMAT_BUF_SIZE NUL
  log_buf := List.replicate LOG_BUF_SIZE NUL
  past_log_buf := fun _ => NUL
  rx_callback_buf := []
  trace := []

/-! ## Primitives -/

/-- Record a primitive call. -/
def emit (s : State) (e : Event) : State :=
  { s with trace := s.trace ++ [e] }

/-- The characters of a C string: everything before the first NUL. -/
def cstr (s : List Char) : List Char :=
  s.takeWhile (fun c => c != NUL)

/-- The scanner of `printf`, restricted to the conversions `%s`, `%d`, `%c`
and `%%` without flags, width, precision or length modifier.  The Boolean tells
that the previous character was a `%` opening a conversion.  This is a partial
model of `vsnprintf`: the other conversions of the C library (`%x`, `%u`,
`%5d`, ...) are not interpreted, their characters are copied unchanged and no
argument is consumed, and so are those of a conversion whose argument is
missing or of another type; a failing call (negative return value) is not
modelled.  The rendered text is that of the C code for formats that use only
the four conversions above with matching arguments. -/
def vformat_scan : Bool → List Char → List va_arg → List Char
  | false, [], _ => []
  | false, c :: rest, args =>
    if c = '%' then vformat_scan true rest args else c :: vformat_scan false rest args
  | true, [], _ => ['%']
  | true, d :: rest, args =>
    if d = '%' then '%' :: vformat_scan false rest args
    else if d = 's' then
      match args with
      | .str s :: args' => cstr s ++ vformat_scan false rest args'
      | _ => '%' :: d :: vformat_scan false rest args
    else if d = 'd' then
      match args with
      | .int n :: args' => (toString n).toList ++ vformat_scan false rest args'
      | _ => '%' :: d :: vformat_scan false rest args
    else if d = 'c' then
      match args with
      | .chr x :: args' => x :: vformat_scan false rest args'
      | _ => '%' :: d :: vformat_scan false rest args
    else '%' :: d :: vformat_scan false rest args

/-- The text `printf` produces for a format and its arguments. -/
def vformat (fmt : List Char) (args : List va_arg) : List Char :=
  vformat_scan false fmt args

/-- What `snprintf(buf, size, ...)` leaves in `buf` when the formatted text is
`out`: at most `size - 1` characters of `out`, then NUL; the rest of the
buffer keeps its old contents.  (The return value is `out.length`.) -/
def snprintf_store (buf : List Char) (size : Nat) (out : List Char) : List Char :=
  out.take (size - 1) ++ NUL :: buf.drop ((out.take (size - 1)).length + 1)

/-- The byte at `log_buf + i`. -/
def peek_log_buf (s : State) (i : Nat) : Char :=
  if i < LOG_BUF_SIZE then s.log_buf.getD i NUL else s.past_log_buf (i - LOG_BUF_SIZE)

/-- The `n` bytes at `log_buf + offset`. -/
def read_log_buf (s : State) (offset n : Nat) : List Char :=
  (List.range n).map (fun j => peek_log_buf s (offset + j))

/-- C `malloc(size)`: on success a fresh block of `size` bytes, on failure
`NULL`.  The contents of a new block, indeterminate in C, are NULs here; the
code overwrites them before any read. -/
def malloc (s : State) (size : Nat) (ok : Bool) : Nat × State :=
  if ok then
    (s.brk, emit { s with heap := s.heap ++ [(s.brk, List.replicate size NUL)],
                          brk := s.brk + 1 } (.malloc size s.brk))
  else (0, emit s (.malloc size 0))

/-- The stores of `memcpy(dst, src, n)`, `bytes` being the `n` bytes at `src`.
Copying nothing touches no memory. -/
def store (s : State) (dst : Nat) (bytes : List Char) : Except Fault State :=
  if bytes.length = 0 then .ok s
  else if dst = 0 then .error (.null_store bytes.length)
  else
    match s.heap.lookup dst with
    | none => .error (.wild_store dst)
    | some blk =>
      if blk.length < bytes.length then .error (.heap_overflow dst)
      else .ok { s with heap := s.heap.map (fun b =>
                  if b.1 = dst then (b.1, bytes ++ b.2.drop bytes.length) else b) }

/-- C `free(p)`: `free(NULL)` does nothing. -/
def free (s : State) (p : Nat) : Except Fault State :=
  if p = 0 then .ok (emit s (.free 0))
  else
    match s.heap.lookup p with
    | none => .error (.bad_free p)
    | some _ => .ok (emit { s with heap := s.heap.filter (fun b => b.1 != p) } (.free p))

/-- The `n` bytes a reader finds at `p`. -/
def load (s : State) (p n : Nat) : Except Fault (List Char) :=
  if n = 0 then .ok []
  else
    match s.heap.lookup p with
    | none => .error (.bad_read p)
    | some blk => if blk.length < n then .error (.bad_read p) else .ok (blk.take n)

/-- The call `xQueueSendFromISR(usb_cdc_rx_queue, &item, &woken)` whose result is `ok`. -/
def xQueueSendFromISR (s : State) (item : buf_len_t) (ok : Bool) : State :=
  emit (if ok then { s with usb_cdc_rx_queue := s.usb_cdc_rx_queue ++ [item] } else s)
    (.xQueueSendFromISR item ok)

/-- The call `xQueueSend(usb_cdc_rx_queue, &item, ticks)` whose result is `ok`. -/
def xQueueSend (s : State) (item : buf_len_t) (ticks : Nat) (ok : Bool) : State :=
  emit (if ok then { s with usb_cdc_rx_queue := s.usb_cdc_rx_queue ++ [item] } else s)
    (.xQueueSend item ticks ok)

/-- Whether the queue has a free slot: the answer FreeRTOS gives to a send when
no other task or interrupt runs in between. -/
def queue_has_room (s : State) : Bool :=
  decide (s.usb_cdc_rx_queue.length < QUEUE_LENGTH)

/-! ## `cdc_log` -/

/-- The end of `cdc_log`, after the loop: give the mutex back, yield if a
send from the ISR asked for it, return `length`. -/
def cdc_log_epilogue (length : Nat) (woken : Bool) (s : State) : Outcome :=
  let s1 := emit s .xSemaphoreGive
  .returned (if woken then emit s1 .portYIELD_FROM_ISR else s1) (some length)

/-- The post of one chunk and the `free` on failure (lines 70-75). -/
def cdc_log_post (env : LogEnv) (k : Nat) (item : buf_len_t) (s : State) : Except Fault State :=
  if env.in_isr then
    let s1 := xQueueSendFromISR s item (env.send_ok k)
    if env.send_ok k then .ok s1 else free s1 item.buf
  else
    let s1 := xQueueSend s item MAX_DELAY (env.send_ok k)
    if env.send_ok k then .ok s1 else free s1 item.buf

/-- The loop `for (size_t offset = 0; offset < length; )` of `cdc_log`,
followed by the end of the function.  `C` is `CONFIG_TINYUSB_CDC_RX_BUFSIZE`,
`k` counts the chunks handled so far, `fuel` bounds the number of iterations. -/
def cdc_log_loop (C : Nat) (env : LogEnv) (length : Nat) :
    Nat → Nat → Nat → Bool → State → Outcome
  | 0, _, offset, woken, s =>
    if offset < length then .out_of_fuel s else cdc_log_epilogue length woken s
  | fuel + 1, k, offset, woken, s =>
    if offset < length then
      let remaining := length - offset
      let len := if remaining > C then C else remaining
      let (p, s1) := malloc s len (env.malloc_ok k)
      let s2 := emit s1 (.memcpy_log_buf p offset len)
      match store s2 p (read_log_buf s2 offset len) with
      | .error f => .fault f s2
      | .ok s3 =>
        match cdc_log_post env k ⟨p, len⟩ s3 with
        | .error f => .fault f s3
        | .ok s4 =>
          cdc_log_loop C env length fuel (k + 1) (offset + len)
            (woken || (env.in_isr && env.send_ok k && env.woken k)) s4
    else cdc_log_epilogue length woken s

/-- The format string of the `snprintf` in `cdc_log`. -/
def LOG_FORMAT : List Char := "[%s] %s\n".toList

/-- Contents of `format_buf` after `snprintf(format_buf, 0x100, "[%s] %s\n", tag, format)`. -/
def render_format_buf (s : State) (tag format : List Char) : List Char :=
  snprintf_store s.format_buf FORMAT_BUF_SIZE (vformat LOG_FORMAT [.str tag, .str format])

/-- The text `vsnprintf(log_buf, 0x800, format_buf, args)` formats; its length
is the value the call returns, whatever the size of `log_buf`. -/
def render_output (s : State) (tag format : List Char) (args : List va_arg) : List Char :=
  vformat (cstr (render_format_buf s tag format)) args

/-- The two formatting calls of `cdc_log` (lines 52-59): `format_buf` receives
the tagged format, `log_buf` the message. -/
def cdc_log_render (s : State) (tag format : List Char) (args : List va_arg) : State :=
  { s with format_buf := render_format_buf s tag format,
           log_buf := snprintf_store s.log_buf LOG_BUF_SIZE (render_output s tag format args) }

/-- The function `size_t cdc_log(const char* tag, const char *format, ...)`.
When the mutex is not obtained the function leaves through `return;`, which
gives the caller no value. -/
def cdc_log (C : Nat) (fuel : Nat) (env : LogEnv) (s : State)
    (tag format : List Char) (args : List va_arg) : Outcome :=
  let s0 := emit s (.xSemaphoreTake MAX_DELAY env.take)
  if env.take then
    cdc_log_loop C env (render_output s0 tag format args).length fuel 0 0 false
      (cdc_log_render s0 tag format args)
  else .returned s0 none

/-! ## `tinyusb_cdc_rx_callback` -/

/-- The post of the chunk and the `free` on failure (lines 109-116); in an
interrupt handler a successful send that woke a task is followed by
`portYIELD_FROM_ISR`. -/
def rx_callback_post (env : RxEnv) (item : buf_len_t) (s : State) : Except Fault State :=
  if env.in_isr then
    let s1 := xQueueSendFromISR s item env.send_ok
    match (if env.send_ok then Except.ok s1 else free s1 item.buf) with
    | .error f => .error f
    | .ok s2 => .ok (if env.send_ok && env.woken then emit s2 .portYIELD_FROM_ISR else s2)
  else
    let s1 := xQueueSend s item MAX_DELAY env.send_ok
    if env.send_ok then .ok s1 else free s1 item.buf

/-- The function `void tinyusb_cdc_rx_callback(int itf, cdcacm_event_t *event)`.
`tinyusb_cdcacm_read` leaves the bytes it delivers at the start of the static `buf`. -/
def tinyusb_cdc_rx_callback (C : Nat) (env : RxEnv) (s : State) : Outcome :=
  let s0 := emit s (.tinyusb_cdcacm_read C env.read)
  match env.read with
  | none => .returned s0 none
  | some data =>
    let s1 := { s0 with rx_callback_buf := data ++ s0.rx_callback_buf.drop data.length }
    let rx_size := data.length
    let (p, s2) := malloc s1 rx_size env.malloc_ok
    let s3 := emit s2 (.memcpy_buf p rx_size)
    match store s3 p (s3.rx_callback_buf.take rx_size) with
    | .error f => .fault f s3
    | .ok s4 =>
      match rx_callback_post env ⟨p, rx_size⟩ s4 with
      | .error f => .fault f s4
      | .ok s5 => .returned s5 none

/-! ## `cdc_process_task` -/

/-- One iteration of the `while (true)` loop of `cdc_process_task`.  The
receive obtains the oldest item; on an empty queue it fails. -/
def cdc_process_task_iter (s : State) : Outcome :=
  match s.usb_cdc_rx_queue with
  | [] => .returned (emit s (.xQueueReceive MAX_DELAY none)) none
  | rx_data :: rest =>
    let s1 := emit { s with usb_cdc_rx_queue := rest } (.xQueueReceive MAX_DELAY (some rx_data))
    match load s1 rx_data.buf rx_data.len with
    | .error f => .fault f s1
    | .ok data =>
      let s2 := emit s1 (.tinyusb_cdcacm_write_queue data)
      let s3 := emit s2 (.tinyusb_cdcacm_write_flush 0)
      match free s3 rx_data.buf with
      | .error f => .fault f s3
      | .ok s4 => .returned s4 none

/-- The first `n` iterations of the loop of `cdc_process_task`. -/
def cdc_process_task_loop : Nat → State → Outcome
  | 0, s => .returned s none
  | n + 1, s =>
    match cdc_process_task_iter s with
    | .returned s1 _ => cdc_process_task_loop n s1
    | o => o

/-- The function `cdc_process_task`, stopped after `n` iterations of its loop. -/
def cdc_process_task (n : Nat) (s : State) : Outcome :=
  cdc_process_task_loop n (emit s (.vTaskDelay 8000))

/-! ## `background_task` -/

/-- One iteration of the loop of `background_task`:
`vTaskDelay(1000); cdc_log("BG", "Hello World %s", "dewe");`. -/
def background_task_iter (C : Nat) (fuel : Nat) (env : LogEnv) (s : State) : Outcome :=
  cdc_log C fuel env (emit s (.vTaskDelay 1000))
    "BG".toList "Hello World %s".toList [.str "dewe".toList]

/-! ## Notions used in the statements -/

/-- Number of chunks of a message of `L` bytes cut into pieces of `C` bytes: `⌈L / C⌉`. -/
def nchunks (C L : Nat) : Nat := (L + C - 1) / C

/-- Length of the `j`-th chunk cut from the bytes `o .. L` of a message. -/
def chunk_len (C L o j : Nat) : Nat := min C (L - (o + j * C))

/-- The `j`-th item a loop posts when it starts with allocator position `b`. -/
def chunk_item (C L o b j : Nat) : buf_len_t := ⟨b + j, chunk_len C L o j⟩

/-- The primitive calls of one loop iteration of `cdc_log` whose `malloc` succeeds. -/
def chunk_events (env : LogEnv) (k : Nat) (item : buf_len_t) (offset : Nat) : List Event :=
  [.malloc item.len item.buf, .memcpy_log_buf item.buf offset item.len,
    if env.in_isr then .xQueueSendFromISR item (env.send_ok k)
    else .xQueueSend item MAX_DELAY (env.send_ok k)]
  ++ (if env.send_ok k then [] else [.free item.buf])

/-- The allocator never hands out `NULL` and every live block is older than `brk`. -/
def heap_fresh (s : State) : Prop :=
  0 < s.brk ∧ ∀ b ∈ s.heap, b.1 < s.brk

instance (s : State) : Decidable (heap_fresh s) := by
  unfold heap_fresh
  infer_instance

/-- The state after `m` loop iterations of `cdc_log` whose `malloc`s succeed,
started at offset `o` with environment index `k`. -/
def after_chunks (C : Nat) (env : LogEnv) (L k o : Nat) (s : State) (m : Nat) : State :=
  { s with
    usb_cdc_rx_queue := s.usb_cdc_rx_queue ++ (List.range m).flatMap (fun j =>
      if env.send_ok (k + j) then [chunk_item C L o s.brk j] else []),
    heap := s.heap ++ (List.range m).flatMap (fun j =>
      if env.send_ok (k + j) then
        [(s.brk + j, read_log_buf s (o + j * C) (chunk_len C L o j))] else []),
    brk := s.brk + m,
    trace := s.trace ++ (List.range m).flatMap (fun j =>
      chunk_events env (k + j) (chunk_item C L o s.brk j) (o + j * C)) }

/-- The yield flag after `m` iterations. -/
def woken_after (env : LogEnv) (k : Nat) (w : Bool) (m : Nat) : Bool :=
  w || (List.range m).any (fun j => env.in_isr && env.send_ok (k + j) && env.woken (k + j))


/-- The bytes a chunk holds: what a reader of `c.len` bytes at `c.buf` finds
(nothing when the storage cannot be read). -/
def chunk_bytes (s : State) (c : buf_len_t) : List Char :=
  match load s c.buf c.len with
  | .ok data => data
  | .error _ => []

/-- An environment of a call from a task in which everything succeeds. -/
def env_task : LogEnv := ⟨true, false, fun _ => true, fun _ => true, fun _ => false⟩

/-- The message of `background_task`. -/
def BG_TEXT : List Char := "[BG] Hello World dewe\n".toList

/-- An environment of a call from an interrupt handler in which everything succeeds. -/
def env_isr : LogEnv := ⟨true, true, fun _ => true, fun _ => true, fun _ => false⟩

/-- Whether a primitive call may block its caller: the calls that take a tick
count block when the count is not zero. -/
def Event.blocking : Event → Bool
  | .xSemaphoreTake ticks _ => decide (ticks ≠ 0)
  | .xQueueSend _ ticks _ => decide (ticks ≠ 0)
  | .xQueueReceive ticks _ => decide (ticks ≠ 0)
  | .vTaskDelay ticks => decide (ticks ≠ 0)
  | .tinyusb_cdcacm_write_flush ticks => decide (ticks ≠ 0)
  | _ => false

/-- The enqueue attempts recorded in a trace, in order: the item and the result. -/
def posts (tr : List Event) : List (buf_len_t × Bool) :=
  tr.filterMap (fun e =>
    match e with
    | .xQueueSend item _ res => some (item, res)
    | .xQueueSendFromISR item res => some (item, res)
    | _ => none)

/-- The memory error of a call that stopped at one. -/
def Outcome.fault_of : Outcome → Option Fault
  | .fault f _ => some f
  | _ => none

/-- The ownership invariant of the pipeline: the live heap blocks are, in
order, exactly the storage of the chunks held in the queue (a chunk with null
storage holds no bytes and owns no block), each block has the length of its
chunk, no block is live twice, and the allocator is ahead of every live block. -/
def Inv (s : State) : Prop :=
  heap_fresh s ∧ (s.heap.map Prod.fst).Nodup ∧
  s.heap.map (fun b => (⟨b.1, b.2.length⟩ : buf_len_t))
    = s.usb_cdc_rx_queue.filter (fun c => c.buf != 0) ∧
  ∀ c ∈ s.usb_cdc_rx_queue, c.buf = 0 → c.len = 0

instance (s : State) : Decidable (Inv s) := by
  unfold Inv
  infer_instance

/-- An operation of the pipeline with what the environment answers to it. -/
inductive Op where
  | log (fuel : Nat) (env : LogEnv) (tag format : List Char) (args : List va_arg)
  | rx (env : RxEnv)
  | process

/-- The effect of one operation. -/
def step (C : Nat) (s : State) : Op → Outcome
  | .log fuel env tag format args => cdc_log C fuel env s tag format args
  | .rx env => tinyusb_cdc_rx_callback C env s
  | .process => cdc_process_task_iter s

/-- A series of callbacks with nothing running in between: a send succeeds
only if the queue has a free slot.  The series ends at the first memory error. -/
def rx_storm (C : Nat) : List RxEnv → State → Outcome
  | [], s => .returned s none
  | e :: es, s =>
    match tinyusb_cdc_rx_callback C { e with send_ok := e.send_ok && queue_has_room s } s with
    | .returned s' _ => rx_storm C es s'
    | o => o

/-- The bytes handed to `tinyusb_cdcacm_write_queue` in a trace, in order. -/
def transport_bytes (tr : List Event) : List Char :=
  tr.flatMap (fun e =>
    match e with
    | .tinyusb_cdcacm_write_queue data => data
    | _ => [])

/-- The primitive calls of the iteration of `cdc_process_task` that receives `c`. -/
def process_events (s : State) (c : buf_len_t) : List Event :=
  [.xQueueReceive MAX_DELAY (some c), .tinyusb_cdcacm_write_queue (chunk_bytes s c),
   .tinyusb_cdcacm_write_flush 0, .free c.buf]

/-- The state at reset after `cdc_log("BG", "Hello World %s", "dewe")` with
items of 8 bytes: three chunks are queued. -/
def state_after_log : State :=
  (cdc_log 8 22 env_task State.init "BG".toList "Hello World %s".toList
    [.str "dewe".toList]).state

/-- A state with `n` queued chunks of one byte each. -/
def state_chunks_of_one (n : Nat) : State :=
  { State.init with
    usb_cdc_rx_queue := (List.range n).map (fun i => ⟨i + 1, 1⟩),
    heap := (List.range n).map (fun i => (i + 1, ['a'])),
    brk := n + 1 }

/-- A state whose queue is full. -/
def state_full : State := state_chunks_of_one QUEUE_LENGTH

/-- A series of operations; it ends at the first one that does not return. -/
def run (C : Nat) : List Op → State → Outcome
  | [], s => .returned s none
  | op :: ops, s =>
    match step C s op with
    | .returned s' _ => run C ops s'
    | o => o

theorem nchunks_zero (C : Nat) (hC : 1 ≤ C) : nchunks C 0 = 0 := by
  unfold nchunks
  apply Nat.div_eq_of_lt
  omega

theorem nchunks_small (C R : Nat) (hR : 0 < R) (hRC : R ≤ C) : nchunks C R = 1 := by
  unfold nchunks
  have h : R + C - 1 = (R - 1) + C := by omega
  rw [h, Nat.add_div_right _ (by omega : 0 < C), Nat.div_eq_of_lt (by omega)]

theorem nchunks_big (C R : Nat) (hC : 1 ≤ C) (hRC : C < R) :
    nchunks C R = nchunks C (R - C) + 1 := by
  unfold nchunks
  have h : R + C - 1 = (R - C + C - 1) + C := by omega
  rw [h, Nat.add_div_right _ (by omega : 0 < C)]

/-- The chunk count is the least number of `C`-byte pieces covering `L` bytes. -/
theorem nchunks_spec (C L : Nat) (hC : 1 ≤ C) :
    L ≤ nchunks C L * C ∧ (0 < L → (nchunks C L - 1) * C < L) := by
  induction L using Nat.strong_induction_on with
  | _ L ih =>
    rcases Nat.eq_zero_or_pos L with h0 | hpos
    · subst h0; simp
    · rcases Nat.lt_or_ge C L with hbig | hsmall
      · have hrec := ih (L - C) (by omega)
        rw [nchunks_big C L hC hbig]
        have e1 : (nchunks C (L - C) + 1) * C = nchunks C (L - C) * C + C := by ring
        have hpos2 : 0 < L - C := by omega
        have h2 := hrec.2 hpos2
        have hn : 1 ≤ nchunks C (L - C) := by
          by_contra hcon
          have : nchunks C (L - C) = 0 := by omega
          have := hrec.1
          simp_all
        refine ⟨by omega, fun _ => ?_⟩
        have e2 : (nchunks C (L - C) + 1 - 1) * C = (nchunks C (L - C) - 1) * C + C := by
          have : nchunks C (L - C) + 1 - 1 = (nchunks C (L - C) - 1) + 1 := by omega
          rw [this]; ring
        omega
      · rw [nchunks_small C L hpos hsmall]
        simp
        omega


theorem chunk_offset_lt (C L : Nat) (hC : 1 ≤ C) (j : Nat) (hj : j < nchunks C L) :
    j * C < L := by
  have hpos : 0 < L := by
    rcases Nat.eq_zero_or_pos L with h0 | h0
    · rw [h0, nchunks_zero C hC] at hj; omega
    · exact h0
  have h1 := (nchunks_spec C L hC).2 hpos
  have h2 : j * C ≤ (nchunks C L - 1) * C := Nat.mul_le_mul_right C (by omega)
  omega

/-! ## The heap primitives on a fresh block -/

theorem lookup_append_new (h : List (Nat × List Char)) (p : Nat) (v : List Char)
    (hp : ∀ b ∈ h, b.1 ≠ p) : (h ++ [(p, v)]).lookup p = some v := by
  induction h with
  | nil => simp [List.lookup]
  | cons a t ih =>
    have ha : a.1 ≠ p := hp a (by simp)
    have hne : (p == a.1) = false := by
      simp only [beq_eq_false_iff_ne, ne_eq]
      exact fun e => ha e.symm
    obtain ⟨a1, a2⟩ := a
    simp only [List.cons_append, List.lookup]
    simp only at hne
    rw [hne]
    exact ih (fun b hb => hp b (by simp [hb]))

theorem map_update_new (h : List (Nat × List Char)) (p : Nat) (old new : List Char)
    (hp : ∀ b ∈ h, b.1 ≠ p) :
    (h ++ [(p, old)]).map
        (fun b => if b.1 = p then (b.1, new ++ b.2.drop new.length) else b)
      = h ++ [(p, new ++ old.drop new.length)] := by
  induction h with
  | nil => simp
  | cons a t ih =>
    have ha : a.1 ≠ p := hp a (by simp)
    have iht := ih (fun b hb => hp b (by simp [hb]))
    simp only [List.cons_append, List.map_cons, if_neg ha, iht]

theorem filter_new (h : List (Nat × List Char)) (p : Nat) (v : List Char)
    (hp : ∀ b ∈ h, b.1 ≠ p) :
    (h ++ [(p, v)]).filter (fun b => b.1 != p) = h := by
  induction h with
  | nil => simp
  | cons a t ih =>
    have ha : a.1 ≠ p := hp a (by simp)
    have iht := ih (fun b hb => hp b (by simp [hb]))
    simp only [List.cons_append]
    rw [List.filter_cons_of_pos (by simpa using ha), iht]

theorem heap_fresh_ne (s : State) (hf : heap_fresh s) : ∀ b ∈ s.heap, b.1 ≠ s.brk :=
  fun b hb => Nat.ne_of_lt (hf.2 b hb)

theorem read_log_buf_length (s : State) (o n : Nat) : (read_log_buf s o n).length = n := by
  simp [read_log_buf]

/-- A successful `malloc` followed by the `memcpy` of `n` bytes into the block. -/
theorem malloc_store (s : State) (n : Nat) (e : Event) (bytes : List Char)
    (hf : heap_fresh s) (hlen : bytes.length = n) :
    store (emit (malloc s n true).2 e) (malloc s n true).1 bytes
      = .ok { s with heap := s.heap ++ [(s.brk, bytes)], brk := s.brk + 1,
                     trace := s.trace ++ [.malloc n s.brk, e] } := by
  have hne := heap_fresh_ne s hf
  have hb : s.brk ≠ 0 := Nat.pos_iff_ne_zero.mp hf.1
  rcases Nat.eq_zero_or_pos n with h0 | hpos
  · subst h0
    have : bytes = [] := List.length_eq_zero.mp hlen
    subst this
    simp [store, malloc, emit]
  · have hl : bytes.length ≠ 0 := by omega
    simp only [store, malloc, emit, if_true, if_neg hl, if_neg hb]
    rw [lookup_append_new _ _ _ hne]
    simp only [List.length_replicate, hlen, Nat.lt_irrefl, if_false]
    rw [← hlen, map_update_new _ _ _ _ hne]
    simp [hlen]

/-- The post of a chunk whose block is the youngest of the heap. -/
theorem cdc_log_post_new (env : LogEnv) (k : Nat) (s : State) (h : List (Nat × List Char))
    (p len : Nat) (bytes : List Char) (hp0 : p ≠ 0) (hp : ∀ b ∈ h, b.1 ≠ p)
    (hs : s.heap = h ++ [(p, bytes)]) :
    cdc_log_post env k ⟨p, len⟩ s
      = .ok { s with
          usb_cdc_rx_queue :=
            s.usb_cdc_rx_queue ++ (if env.send_ok k then [⟨p, len⟩] else []),
          heap := h ++ (if env.send_ok k then [(p, bytes)] else []),
          trace := s.trace ++ ([if env.in_isr then .xQueueSendFromISR ⟨p, len⟩ (env.send_ok k)
                                else .xQueueSend ⟨p, len⟩ MAX_DELAY (env.send_ok k)]
                    ++ (if env.send_ok k then [] else [.free p])) } := by
  cases hisr : env.in_isr <;> cases hok : env.send_ok k <;>
    simp [cdc_log_post, hisr, hok, xQueueSend, xQueueSendFromISR, emit, free, hp0, hs,
      lookup_append_new _ _ _ hp, filter_new _ _ _ hp]

/-! ## The loop of `cdc_log` when every `malloc` succeeds -/

theorem flatMap_range_succ {α : Type} (f : Nat → List α) (m : Nat) :
    (List.range (m + 1)).flatMap f = f 0 ++ (List.range m).flatMap (fun j => f (j + 1)) := by
  rw [List.range_succ_eq_map, List.flatMap_cons, List.flatMap_map]

theorem flatMap_range_one {α : Type} (f : Nat → List α) :
    (List.range 1).flatMap f = f 0 := by
  have h : List.range 1 = [0] := rfl
  simp [h]

theorem any_range_succ (f : Nat → Bool) (m : Nat) :
    (List.range (m + 1)).any f = (f 0 || (List.range m).any (fun j => f (j + 1))) := by
  rw [List.range_succ_eq_map, List.any_cons, List.any_map]
  rfl

theorem read_log_buf_congr (s t : State) (h1 : t.log_buf = s.log_buf)
    (h2 : t.past_log_buf = s.past_log_buf) (o n : Nat) :
    read_log_buf t o n = read_log_buf s o n := by
  simp [read_log_buf, peek_log_buf, h1, h2]

theorem after_chunks_zero (C : Nat) (env : LogEnv) (L k o : Nat) (s : State) :
    after_chunks C env L k o s 0 = s := by
  apply State.ext <;> simp [after_chunks]

theorem heap_fresh_after (C : Nat) (env : LogEnv) (L k o : Nat) (s : State) (m : Nat)
    (hf : heap_fresh s) : heap_fresh (after_chunks C env L k o s m) := by
  refine ⟨by simp only [after_chunks]; have := hf.1; omega, ?_⟩
  intro b hb
  simp only [after_chunks, List.mem_append, List.mem_flatMap, List.mem_range] at hb ⊢
  rcases hb with hb | ⟨j, hj, hb⟩
  · have := hf.2 b hb; omega
  · split at hb
    · simp only [List.mem_singleton] at hb
      subst hb
      simp only
      omega
    · simp at hb

/-- One more iteration in front of `m` iterations. -/
theorem after_chunks_succ (C : Nat) (env : LogEnv) (L k o : Nat) (s : State) (m : Nat) :
    after_chunks C env L (k + 1) (o + C) (after_chunks C env L k o s 1) m
      = after_chunks C env L k o s (m + 1) := by
  have hlen : ∀ j, chunk_len C L (o + C) j = chunk_len C L o (j + 1) := by
    intro j
    simp only [chunk_len]
    congr 2
    ring
  have hoff : ∀ j, o + C + j * C = o + (j + 1) * C := by intro j; ring
  have hk : ∀ j, k + 1 + j = k + (j + 1) := by intro j; omega
  have hb : ∀ j, s.brk + 1 + j = s.brk + (j + 1) := by intro j; omega
  apply State.ext
  · simp only [after_chunks, flatMap_range_succ _ m, flatMap_range_one, List.append_assoc]
    simp [chunk_item, hlen, hk, hb]
  · simp only [after_chunks, flatMap_range_succ _ m, flatMap_range_one, List.append_assoc]
    simp [hlen, hk, hb, hoff, read_log_buf, peek_log_buf]
  · simp only [after_chunks]; omega
  · rfl
  · rfl
  · rfl
  · rfl
  · simp only [after_chunks, flatMap_range_succ _ m, flatMap_range_one, List.append_assoc]
    simp [chunk_item, hlen, hk, hb, hoff]

theorem woken_after_succ (env : LogEnv) (k : Nat) (w : Bool) (m : Nat) :
    woken_after env (k + 1) (w || (env.in_isr && env.send_ok k && env.woken k)) m
      = woken_after env k w (m + 1) := by
  have hk : ∀ j, k + 1 + j = k + (j + 1) := by intro j; omega
  simp only [woken_after, any_range_succ _ m, hk, Nat.add_zero, Bool.or_assoc]

/-- The state after one iteration whose `malloc` succeeds. -/
theorem cdc_log_iteration (C : Nat) (env : LogEnv) (L k o : Nat) (s : State)
    (hf : heap_fresh s) :
    (store (emit (malloc s (chunk_len C L o 0) true).2
          (.memcpy_log_buf (malloc s (chunk_len C L o 0) true).1 o (chunk_len C L o 0)))
        (malloc s (chunk_len C L o 0) true).1
        (read_log_buf (emit (malloc s (chunk_len C L o 0) true).2
          (.memcpy_log_buf (malloc s (chunk_len C L o 0) true).1 o (chunk_len C L o 0)))
          o (chunk_len C L o 0))).bind
      (cdc_log_post env k ⟨(malloc s (chunk_len C L o 0) true).1, chunk_len C L o 0⟩)
      = .ok (after_chunks C env L k o s 1) := by
  rw [malloc_store s _ _ _ hf (read_log_buf_length _ _ _)]
  simp only [Except.bind]
  have hb : s.brk ≠ 0 := Nat.pos_iff_ne_zero.mp hf.1
  have hm : (malloc s (chunk_len C L o 0) true).1 = s.brk := by simp [malloc]
  rw [hm, cdc_log_post_new env k _ s.heap s.brk _ _ hb (heap_fresh_ne s hf) rfl]
  congr 1
  have hread : ∀ t : State, t.log_buf = s.log_buf → t.past_log_buf = s.past_log_buf →
      read_log_buf t o (chunk_len C L o 0) = read_log_buf s o (chunk_len C L o 0) :=
    fun t h1 h2 => read_log_buf_congr s t h1 h2 _ _
  apply State.ext <;>
    simp [after_chunks, flatMap_range_one, chunk_item, chunk_events, malloc, emit,
      read_log_buf, peek_log_buf]

theorem chunk_len_zero (C L o : Nat) :
    (if L - o > C then C else L - o) = chunk_len C L o 0 := by
  simp only [chunk_len, Nat.zero_mul, Nat.add_zero]
  split <;> omega

theorem cdc_log_loop_step (C : Nat) (env : LogEnv) (L fuel k o : Nat) (w : Bool) (s : State)
    (h : o < L) (hm : env.malloc_ok k = true) (hf : heap_fresh s) :
    cdc_log_loop C env L (fuel + 1) k o w s
      = cdc_log_loop C env L fuel (k + 1) (o + chunk_len C L o 0)
          (w || (env.in_isr && env.send_ok k && env.woken k))
          (after_chunks C env L k o s 1) := by
  have hit := cdc_log_iteration C env L k o s hf
  rw [cdc_log_loop]
  simp only [if_pos h, hm, chunk_len_zero]
  generalize store _ _ _ = X at hit ⊢
  cases X with
  | error f => simp [Except.bind] at hit
  | ok s3 =>
    simp only [Except.bind] at hit
    simp only [hit]

theorem cdc_log_loop_exit (C : Nat) (env : LogEnv) (L fuel k o : Nat) (w : Bool) (s : State)
    (h : ¬ o < L) : cdc_log_loop C env L fuel k o w s = cdc_log_epilogue L w s := by
  cases fuel <;> simp [cdc_log_loop, h]

/-- With enough fuel and successful `malloc`s the loop runs to its end: it
performs `nchunks C (L - o)` iterations and then the end of `cdc_log`. -/
theorem cdc_log_loop_ok (C : Nat) (env : LogEnv) (L : Nat) (hC : 1 ≤ C) :
    ∀ (fuel k o : Nat) (w : Bool) (s : State), heap_fresh s → L - o ≤ fuel →
      (∀ j, j < nchunks C (L - o) → env.malloc_ok (k + j) = true) →
      cdc_log_loop C env L fuel k o w s
        = cdc_log_epilogue L (woken_after env k w (nchunks C (L - o)))
            (after_chunks C env L k o s (nchunks C (L - o))) := by
  intro fuel
  induction fuel with
  | zero =>
    intro k o w s _ hfuel _
    have h : ¬ o < L := by omega
    have h0 : L - o = 0 := by omega
    rw [cdc_log_loop_exit _ _ _ _ _ _ _ _ h, h0, nchunks_zero C hC, after_chunks_zero]
    simp [woken_after]
  | succ fuel ih =>
    intro k o w s hf hfuel hm
    by_cases h : o < L
    · have hpos : 0 < L - o := by omega
      rcases Nat.lt_or_ge C (L - o) with hbig | hsmall
      · have hn := nchunks_big C (L - o) hC hbig
        have hlen : chunk_len C L o 0 = C := by simp [chunk_len]; omega
        have hm0 : env.malloc_ok k = true := by
          have := hm 0 (by omega)
          simpa using this
        rw [cdc_log_loop_step C env L fuel k o w s h hm0 hf, hlen]
        have e : L - (o + C) = L - o - C := by omega
        rw [ih (k + 1) (o + C) _ _ (heap_fresh_after C env L k o s 1 hf) (by omega)
          (by
            intro j hj
            rw [e] at hj
            have := hm (j + 1) (by omega)
            rw [← this]; congr 1; omega)]
        rw [e, hn, after_chunks_succ, woken_after_succ]
      · have hn := nchunks_small C (L - o) hpos hsmall
        have hlen : chunk_len C L o 0 = L - o := by simp [chunk_len]; omega
        have hm0 : env.malloc_ok k = true := by
          have := hm 0 (by omega)
          simpa using this
        rw [cdc_log_loop_step C env L fuel k o w s h hm0 hf, hlen]
        have h2 : ¬ (o + (L - o)) < L := by omega
        rw [cdc_log_loop_exit _ _ _ _ _ _ _ _ h2, hn]
        simp [woken_after, flatMap_range_one, show List.range 1 = [0] from rfl]
    · have h0 : L - o = 0 := by omega
      rw [cdc_log_loop_exit _ _ _ _ _ _ _ _ h, h0, nchunks_zero C hC, after_chunks_zero]
      simp [woken_after]

/-! ## `cdc_log` as a whole -/

/-- The state in which `cdc_log` returns after its loop. -/
theorem cdc_log_epilogue_eq (L : Nat) (w : Bool) (t : State) :
    cdc_log_epilogue L w t
      = .returned { t with trace := t.trace ++ .xSemaphoreGive ::
                      (if w then [.portYIELD_FROM_ISR] else []) } (some L) := by
  cases w <;> simp [cdc_log_epilogue, emit]

theorem render_output_emit (s : State) (e : Event) (tag format : List Char)
    (args : List va_arg) :
    render_output (emit s e) tag format args = render_output s tag format args := rfl

theorem heap_fresh_render (s : State) (e : Event) (tag format : List Char)
    (args : List va_arg) (hf : heap_fresh s) :
    heap_fresh (cdc_log_render (emit s e) tag format args) := hf

/-- When the mutex is taken, every `malloc` succeeds and the fuel suffices,
`cdc_log` returns the length of the formatted text after `nchunks` iterations. -/
theorem cdc_log_ok (C fuel : Nat) (env : LogEnv) (s : State) (tag format : List Char)
    (args : List va_arg) (hC : 1 ≤ C) (htake : env.take = true)
    (hmalloc : ∀ j, j < nchunks C (render_output s tag format args).length →
      env.malloc_ok j = true)
    (hheap : heap_fresh s) (hfuel : (render_output s tag format args).length ≤ fuel) :
    cdc_log C fuel env s tag format args
      = cdc_log_epilogue (render_output s tag format args).length
          (woken_after env 0 false (nchunks C (render_output s tag format args).length))
          (after_chunks C env (render_output s tag format args).length 0 0
            (cdc_log_render (emit s (.xSemaphoreTake MAX_DELAY true)) tag format args)
            (nchunks C (render_output s tag format args).length)) := by
  simp only [cdc_log, htake, if_true, render_output_emit]
  have h := cdc_log_loop_ok C env (render_output s tag format args).length hC fuel 0 0 false
    (cdc_log_render (emit s (.xSemaphoreTake MAX_DELAY true)) tag format args)
    (heap_fresh_render s _ tag format args hheap) (by omega)
    (by intro j hj; simpa using hmalloc j (by simpa using hj))
  simpa using h

/-! ## Reading the rendered message back -/

theorem peek_rendered (s : State) (out : List Char) (i : Nat)
    (buf : List Char) (hs : s.log_buf = snprintf_store buf LOG_BUF_SIZE out)
    (hfit : out.length < LOG_BUF_SIZE) (hi : i < out.length) :
    peek_log_buf s i = out.getD i NUL := by
  have h1 : i < LOG_BUF_SIZE := by omega
  have h2 : out.take (LOG_BUF_SIZE - 1) = out := List.take_of_length_le (by omega)
  simp only [peek_log_buf, if_pos h1, hs, snprintf_store, h2]
  rw [List.getD_append _ _ _ _ hi]

theorem read_rendered (s : State) (out buf : List Char) (o n : Nat)
    (hs : s.log_buf = snprintf_store buf LOG_BUF_SIZE out)
    (hfit : out.length < LOG_BUF_SIZE) (hn : o + n ≤ out.length) :
    read_log_buf s o n = (out.drop o).take n := by
  apply List.ext_getElem
  · simp [read_log_buf]; omega
  · intro i h1 h2
    simp only [read_log_buf, List.getElem_map, List.getElem_range]
    have hi : i < n := by simpa [read_log_buf] using h1
    rw [peek_rendered s out (o + i) buf hs hfit (by omega)]
    rw [List.getD_eq_getElem _ _ (by omega)]
    simp

/-- Cutting a list into consecutive pieces of `C` elements and gluing them back. -/
theorem slices_flatten (C : Nat) :
    ∀ (n : Nat) (out : List Char), out.length ≤ n * C →
      ((List.range n).map (fun j => (out.drop (j * C)).take (min C (out.length - j * C)))).flatten
        = out := by
  intro n
  induction n with
  | zero =>
    intro out h
    have : out = [] := List.length_eq_zero.mp (by omega)
    simp [this]
  | succ n ih =>
    intro out h
    rw [List.range_succ_eq_map, List.map_cons, List.map_map, List.flatten_cons]
    have hrec := ih (out.drop C) (by
      simp only [List.length_drop]
      have : (n + 1) * C = n * C + C := by ring
      omega)
    have hfun : ((fun j => (out.drop (j * C)).take (min C (out.length - j * C))) ∘ Nat.succ)
        = fun j => ((out.drop C).drop (j * C)).take (min C ((out.drop C).length - j * C)) := by
      funext j
      simp only [Function.comp, List.drop_drop, List.length_drop, Nat.succ_eq_add_one]
      have e1 : C + j * C = (j + 1) * C := by ring
      have e2 : out.length - C - j * C = out.length - (j + 1) * C := by
        rw [← e1]; omega
      rw [e1, e2]
    rw [hfun, hrec]
    simp only [Nat.zero_mul, List.drop_zero, Nat.sub_zero]
    have : out.take (min C out.length) = out.take C := by
      rcases Nat.le_total C out.length with h1 | h1
      · rw [Nat.min_eq_left h1]
      · rw [Nat.min_eq_right h1, List.take_of_length_le h1, List.take_of_length_le (le_refl _)]
    rw [this, List.take_append_drop]

theorem flatMap_if_true {α : Type} (f : Nat → α) (l : List Nat) (p : Nat → Bool)
    (hp : ∀ j ∈ l, p j = true) :
    l.flatMap (fun j => if p j = true then [f j] else []) = l.map f := by
  induction l with
  | nil => rfl
  | cons a t ih =>
    have ha := hp a (by simp)
    have iht := ih (fun j hj => hp j (by simp [hj]))
    simp [ha, iht]

theorem lookup_new_block (h : List (Nat × List Char)) (b : Nat) (f : Nat → List Char)
    (hh : ∀ x ∈ h, x.1 < b) :
    ∀ (n j : Nat), j < n →
      (h ++ (List.range n).map (fun i => (b + i, f i))).lookup (b + j) = some (f j) := by
  have h1 : ∀ j, h.lookup (b + j) = none := by
    intro j
    rw [List.lookup_eq_none_iff]
    intro p hp
    have := hh p hp
    simp only [bne_iff_ne, ne_eq]
    omega
  intro n
  induction n with
  | zero => intro j hj; omega
  | succ n ih =>
    intro j hj
    rw [List.range_succ, List.map_append, ← List.append_assoc, List.lookup_append]
    rcases Nat.lt_or_ge j n with hlt | hge
    · rw [ih j hlt]; rfl
    · have hjn : j = n := by omega
      subst hjn
      have hnone : (h ++ (List.range j).map (fun i => (b + i, f i))).lookup (b + j) = none := by
        rw [List.lookup_append, h1 j]
        simp only [Option.or]
        rw [List.lookup_eq_none_iff]
        intro p hp
        simp only [List.mem_map, List.mem_range] at hp
        obtain ⟨i, hi, rfl⟩ := hp
        simp only [bne_iff_ne, ne_eq]
        omega
      rw [hnone]
      simp [Option.or]

theorem read_slice (s : State) (L o n : Nat) (h : o + n ≤ L) :
    read_log_buf s o n = ((read_log_buf s 0 L).drop o).take n := by
  apply List.ext_getElem
  · simp [read_log_buf]; omega
  · intro i h1 h2
    simp [read_log_buf]

/-- Chunks whose blocks hold consecutive pieces of the `L` bytes at `log_buf`:
their bytes, concatenated, are these `L` bytes. -/
theorem chunks_concat (C L : Nat) (hC : 1 ≤ C) (t : State) (h : List (Nat × List Char))
    (b : Nat) (hh : ∀ x ∈ h, x.1 < b)
    (ht : t.heap = h ++ (List.range (nchunks C L)).map
      (fun j => (b + j, read_log_buf t (j * C) (min C (L - j * C))))) :
    ((List.range (nchunks C L)).map
        (fun j => chunk_bytes t ⟨b + j, min C (L - j * C)⟩)).flatten
      = read_log_buf t 0 L := by
  have hsl := slices_flatten C (nchunks C L) (read_log_buf t 0 L)
    (by rw [read_log_buf_length]; exact (nchunks_spec C L hC).1)
  simp only [read_log_buf_length] at hsl
  refine Eq.trans ?_ hsl
  congr 1
  apply List.map_congr_left
  intro j hj
  have hj' : j < nchunks C L := List.mem_range.mp hj
  have hjC := chunk_offset_lt C L hC j hj'
  simp only [chunk_bytes, load]
  rw [ht, lookup_new_block h b _ hh _ j hj', read_slice t L (j * C) (min C (L - j * C)) (by omega)]
  have hnot : ¬ (List.take (min C (L - j * C)) (List.drop (j * C) (read_log_buf t 0 L))).length
      < min C (L - j * C) := by
    simp only [List.length_take, List.length_drop, read_log_buf_length]
    omega
  by_cases h0 : min C (L - j * C) = 0
  · simp [h0]
  · simp only [if_neg h0, if_neg hnot, List.take_take, Nat.min_self]

/-- The delivery of a message: when the mutex is taken and the `malloc` and
the enqueue of each of its `nchunks C L` chunks succeed, `cdc_log` returns `L`
and appends these chunks to the queue; their bytes, concatenated in order, are
the `L` bytes found at `log_buf`, which are the message when it fits `log_buf`. -/
theorem cdc_log_delivers (C fuel : Nat) (env : LogEnv) (s : State)
    (tag format : List Char) (args : List va_arg)
    (hC : 1 ≤ C) (htake : env.take = true)
    (hmalloc : ∀ k, k < nchunks C (render_output s tag format args).length →
      env.malloc_ok k = true)
    (hsend : ∀ k, k < nchunks C (render_output s tag format args).length →
      env.send_ok k = true) (hheap : heap_fresh s)
    (hfuel : (render_output s tag format args).length ≤ fuel) :
    ∃ s', cdc_log C fuel env s tag format args
          = .returned s' (some (render_output s tag format args).length) ∧
      s'.usb_cdc_rx_queue = s.usb_cdc_rx_queue ++
        (List.range (nchunks C (render_output s tag format args).length)).map
          (fun j => (⟨s.brk + j, min C ((render_output s tag format args).length - j * C)⟩
            : buf_len_t)) ∧
      s'.usb_cdc_rx_queue.length
        = s.usb_cdc_rx_queue.length + nchunks C (render_output s tag format args).length ∧
      ((List.range (nchunks C (render_output s tag format args).length)).map
          (fun j => chunk_bytes s'
            ⟨s.brk + j, min C ((render_output s tag format args).length - j * C)⟩)).flatten
        = read_log_buf s' 0 (render_output s tag format args).length ∧
      ((render_output s tag format args).length < LOG_BUF_SIZE →
        read_log_buf s' 0 (render_output s tag format args).length
          = render_output s tag format args) ∧
      s'.log_buf = snprintf_store s.log_buf LOG_BUF_SIZE (render_output s tag format args) := by
  rw [cdc_log_ok C fuel env s tag format args hC htake hmalloc hheap hfuel,
    cdc_log_epilogue_eq]
  refine ⟨_, rfl, ?_, ?_, ?_, ?_, rfl⟩
  · simp only [after_chunks, Nat.zero_add]
    rw [flatMap_if_true _ _ _ (fun j hj => hsend j (List.mem_range.mp hj))]
    simp [chunk_item, chunk_len, cdc_log_render, emit]
  · simp only [after_chunks, Nat.zero_add]
    rw [flatMap_if_true _ _ _ (fun j hj => hsend j (List.mem_range.mp hj))]
    simp [cdc_log_render, emit]
  · apply chunks_concat C _ hC _ s.heap s.brk hheap.2
    simp only [after_chunks, Nat.zero_add]
    rw [flatMap_if_true (fun j => (_, _)) _ _ (fun j hj => hsend j (List.mem_range.mp hj))]
    simp [chunk_len, cdc_log_render, emit, read_log_buf, peek_log_buf]
  · intro hfit
    have h := read_rendered
      (cdc_log_render (emit s (.xSemaphoreTake MAX_DELAY true)) tag format args)
      (render_output s tag format args) s.log_buf 0
      (render_output s tag format args).length rfl hfit (by omega)
    simp only [List.drop_zero, List.take_length] at h
    exact Eq.trans (read_log_buf_congr _ _ rfl rfl _ _) h

/-! ## The message of `background_task` -/

theorem cstr_append_NUL (l r : List Char) (hl : ∀ c ∈ l, c ≠ NUL) :
    cstr (l ++ NUL :: r) = l := by
  induction l with
  | nil => simp [cstr, List.takeWhile]
  | cons a t ih =>
    have ha : a ≠ NUL := hl a (by simp)
    have iht := ih (fun c hc => hl c (by simp [hc]))
    simp only [cstr] at iht ⊢
    simp only [List.cons_append, List.takeWhile_cons]
    simp [ha, iht]

/-- Whatever `format_buf` held before, the message of `background_task` is `BG_TEXT`. -/
theorem render_output_bg (s : State) :
    render_output s "BG".toList "Hello World %s".toList [.str "dewe".toList] = BG_TEXT := by
  have h1 : vformat LOG_FORMAT [.str "BG".toList, .str "Hello World %s".toList]
      = "[BG] Hello World %s\n".toList := by decide
  have h2 : ("[BG] Hello World %s\n".toList).take (FORMAT_BUF_SIZE - 1)
      = "[BG] Hello World %s\n".toList := by decide
  have h3 : ∀ c ∈ "[BG] Hello World %s\n".toList, c ≠ NUL := by decide
  have h4 : vformat "[BG] Hello World %s\n".toList [.str "dewe".toList] = BG_TEXT := by decide
  simp only [render_output, render_format_buf, snprintf_store, h1, h2]
  rw [cstr_append_NUL _ _ h3, h4]

theorem BG_TEXT_length : BG_TEXT.length = 22 := by decide

/-! ## The copies out of `log_buf` -/

/-- Every chunk of the split is copied from `log_buf + j * C`. -/
theorem cdc_log_memcpy_events (C fuel : Nat) (env : LogEnv) (s : State)
    (tag format : List Char) (args : List va_arg)
    (hC : 1 ≤ C) (htake : env.take = true)
    (hmalloc : ∀ k, k < nchunks C (render_output s tag format args).length →
      env.malloc_ok k = true)
    (hheap : heap_fresh s) (hfuel : (render_output s tag format args).length ≤ fuel)
    (j : Nat) (hj : j < nchunks C (render_output s tag format args).length) :
    Event.memcpy_log_buf (s.brk + j) (j * C)
        (min C ((render_output s tag format args).length - j * C))
      ∈ (cdc_log C fuel env s tag format args).state.trace := by
  rw [cdc_log_ok C fuel env s tag format args hC htake hmalloc hheap hfuel,
    cdc_log_epilogue_eq]
  simp only [Outcome.state, after_chunks, List.mem_append, List.mem_flatMap, List.mem_range]
  left; right
  refine ⟨j, hj, ?_⟩
  simp [chunk_events, chunk_item, chunk_len, cdc_log_render, emit]

/-- The last copy of the loop ends at `log_buf + L`: a message longer than
`log_buf` makes `cdc_log` read past the end of `log_buf`. -/
theorem cdc_log_reads_past_log_buf (C fuel : Nat) (env : LogEnv) (s : State)
    (tag format : List Char) (args : List va_arg)
    (hC : 1 ≤ C) (htake : env.take = true) (hmalloc : ∀ k, env.malloc_ok k = true)
    (hheap : heap_fresh s) (hfuel : (render_output s tag format args).length ≤ fuel)
    (hlong : LOG_BUF_SIZE < (render_output s tag format args).length) :
    ∃ dst offset n, Event.memcpy_log_buf dst offset n
        ∈ (cdc_log C fuel env s tag format args).state.trace ∧
      offset + n = (render_output s tag format args).length ∧ LOG_BUF_SIZE < offset + n := by
  have hsp := nchunks_spec C (render_output s tag format args).length hC
  have hpos : 0 < (render_output s tag format args).length := by omega
  have hn : 0 < nchunks C (render_output s tag format args).length := by
    by_contra h
    have : nchunks C (render_output s tag format args).length = 0 := by omega
    rw [this] at hsp
    omega
  have hev := cdc_log_memcpy_events C fuel env s tag format args hC htake
    (fun k _ => hmalloc k) hheap hfuel
    (nchunks C (render_output s tag format args).length - 1) (by omega)
  refine ⟨_, _, _, hev, ?_, ?_⟩
  · have h1 := hsp.1
    have h2 := hsp.2 hpos
    have e : nchunks C (render_output s tag format args).length * C
        = (nchunks C (render_output s tag format args).length - 1) * C + C := by
      have : nchunks C (render_output s tag format args).length
          = (nchunks C (render_output s tag format args).length - 1) + 1 := by omega
      conv_lhs => rw [this]
      ring
    omega
  · have h1 := hsp.1
    have h2 := hsp.2 hpos
    have e : nchunks C (render_output s tag format args).length * C
        = (nchunks C (render_output s tag format args).length - 1) * C + C := by
      have : nchunks C (render_output s tag format args).length
          = (nchunks C (render_output s tag format args).length - 1) + 1 := by omega
      conv_lhs => rw [this]
      ring
    omega

theorem cstr_of_no_NUL (l : List Char) (hl : ∀ c ∈ l, c ≠ NUL) : cstr l = l := by
  simpa [cstr] using hl

/-- The message of `cdc_log("BG", "%s", msg)`. -/
theorem render_output_percent_s (s : State) (msg : List Char) (hmsg : ∀ c ∈ msg, c ≠ NUL) :
    render_output s "BG".toList "%s".toList [.str msg] = "[BG] ".toList ++ msg ++ [LF] := by
  have h1 : vformat LOG_FORMAT [.str "BG".toList, .str "%s".toList]
      = "[BG] %s\n".toList := by decide
  have h2 : ("[BG] %s\n".toList).take (FORMAT_BUF_SIZE - 1) = "[BG] %s\n".toList := by decide
  have h3 : ∀ c ∈ "[BG] %s\n".toList, c ≠ NUL := by decide
  simp only [render_output, render_format_buf, snprintf_store, h1, h2]
  rw [cstr_append_NUL _ _ h3]
  have h4 : "[BG] %s\n".toList = ['[', 'B', 'G', ']', ' ', '%', 's', LF] := by decide
  rw [h4]
  simp [vformat, vformat_scan, cstr_of_no_NUL msg hmsg, LF]

/-! ## The enqueue attempts of `cdc_log` -/

theorem flatMap_if_filter {α : Type} (f : Nat → α) (l : List Nat) (p : Nat → Bool) :
    l.flatMap (fun j => if p j = true then [f j] else []) = (l.filter p).map f := by
  induction l with
  | nil => rfl
  | cons a t ih =>
    cases h : p a <;> simp [h, ih]

theorem posts_append (a b : List Event) : posts (a ++ b) = posts a ++ posts b := by
  simp [posts]

theorem posts_chunk_events (env : LogEnv) (k : Nat) (item : buf_len_t) (offset : Nat) :
    posts (chunk_events env k item offset) = [(item, env.send_ok k)] := by
  cases h1 : env.in_isr <;> cases h2 : env.send_ok k <;>
    simp [posts, chunk_events, h1, h2, List.filterMap]

theorem posts_flatMap (l : List Nat) (g : Nat → List Event) :
    posts (l.flatMap g) = l.flatMap (fun j => posts (g j)) := by
  induction l with
  | nil => rfl
  | cons a t ih => simp [posts_append, ih]

theorem flatMap_singleton_map {α : Type} (l : List Nat) (f : Nat → α) :
    l.flatMap (fun j => [f j]) = l.map f := by
  induction l with
  | nil => rfl
  | cons a t ih => simp [ih]

theorem store_ok_fields (s s' : State) (p : Nat) (bytes : List Char)
    (h : store s p bytes = .ok s') :
    s'.trace = s.trace ∧ s'.usb_cdc_rx_queue = s.usb_cdc_rx_queue ∧ s'.brk = s.brk := by
  unfold store at h
  split at h
  · cases h; exact ⟨rfl, rfl, rfl⟩
  · split at h
    · cases h
    · split at h
      · cases h
      · split at h
        · cases h
        · cases h; exact ⟨rfl, rfl, rfl⟩

theorem free_ok_fields (s s' : State) (p : Nat) (h : free s p = .ok s') :
    s'.trace = s.trace ++ [.free p] ∧ s'.usb_cdc_rx_queue = s.usb_cdc_rx_queue ∧
      s'.brk = s.brk := by
  unfold free at h
  split at h
  · next hp => cases h; subst hp; exact ⟨rfl, rfl, rfl⟩
  · split at h
    · cases h
    · cases h; exact ⟨rfl, rfl, rfl⟩

theorem malloc_fields (s : State) (n : Nat) (ok : Bool) :
    (malloc s n ok).2.trace = s.trace ++ [.malloc n (malloc s n ok).1] ∧
      (malloc s n ok).2.usb_cdc_rx_queue = s.usb_cdc_rx_queue := by
  cases ok <;> simp [malloc, emit]

theorem cdc_log_post_fields (env : LogEnv) (k : Nat) (item : buf_len_t) (s s' : State)
    (h : cdc_log_post env k item s = .ok s') :
    (∃ ev, s'.trace = s.trace ++ ev ∧ posts ev = [(item, env.send_ok k)] ∧
      (∀ e ∈ ev, env.in_isr = true → e.blocking = false)) ∧
    s'.usb_cdc_rx_queue = s.usb_cdc_rx_queue ++ (if env.send_ok k then [item] else []) := by
  unfold cdc_log_post at h
  cases hisr : env.in_isr <;> cases hok : env.send_ok k <;>
    simp only [hisr, hok, if_true, if_false, Bool.false_eq_true] at h
  · obtain ⟨h1, h2, -⟩ := free_ok_fields _ _ _ h
    refine ⟨⟨[.xQueueSend item MAX_DELAY false, .free item.buf], ?_, rfl, by simp⟩, ?_⟩
    · rw [h1]; simp [xQueueSend, emit]
    · rw [h2]; simp [xQueueSend, emit]
  · cases h
    exact ⟨⟨[.xQueueSend item MAX_DELAY true], by simp [xQueueSend, emit], rfl, by simp⟩,
      by simp [xQueueSend, emit]⟩
  · obtain ⟨h1, h2, -⟩ := free_ok_fields _ _ _ h
    refine ⟨⟨[.xQueueSendFromISR item false, .free item.buf], ?_, rfl, ?_⟩, ?_⟩
    · rw [h1]; simp [xQueueSendFromISR, emit]
    · intro e he _; simp at he; rcases he with rfl | rfl <;> rfl
    · rw [h2]; simp [xQueueSendFromISR, emit]
  · cases h
    refine ⟨⟨[.xQueueSendFromISR item true], by simp [xQueueSendFromISR, emit], rfl, ?_⟩,
      by simp [xQueueSendFromISR, emit]⟩
    intro e he _; simp at he; subst he; rfl

theorem rx_callback_post_fields (env : RxEnv) (item : buf_len_t) (s s' : State)
    (h : rx_callback_post env item s = .ok s') :
    (∃ ev, s'.trace = s.trace ++ ev ∧ posts ev = [(item, env.send_ok)] ∧
      (∀ e ∈ ev, env.in_isr = true → e.blocking = false)) ∧
    s'.usb_cdc_rx_queue = s.usb_cdc_rx_queue ++ (if env.send_ok then [item] else []) := by
  unfold rx_callback_post at h
  cases hisr : env.in_isr <;> cases hok : env.send_ok <;>
    simp only [hisr, hok, if_true, if_false, Bool.false_eq_true, Bool.false_and,
      Bool.true_and] at h
  · obtain ⟨h1, h2, -⟩ := free_ok_fields _ _ _ h
    refine ⟨⟨[.xQueueSend item MAX_DELAY false, .free item.buf], ?_, rfl, by simp⟩, ?_⟩
    · rw [h1]; simp [xQueueSend, emit]
    · rw [h2]; simp [xQueueSend, emit]
  · cases h
    exact ⟨⟨[.xQueueSend item MAX_DELAY true], by simp [xQueueSend, emit], rfl, by simp⟩,
      by simp [xQueueSend, emit]⟩
  · cases hf : free (xQueueSendFromISR s item false) item.buf with
    | error f => rw [hf] at h; cases h
    | ok s2 =>
      rw [hf] at h
      cases h
      obtain ⟨h1, h2, -⟩ := free_ok_fields _ _ _ hf
      refine ⟨⟨[.xQueueSendFromISR item false, .free item.buf], ?_, rfl, ?_⟩, ?_⟩
      · rw [h1]; simp [xQueueSendFromISR, emit]
      · intro e he _; simp at he; rcases he with rfl | rfl <;> rfl
      · rw [h2]; simp [xQueueSendFromISR, emit]
  · cases h
    cases hw : env.woken
    · refine ⟨⟨[.xQueueSendFromISR item true], by simp [xQueueSendFromISR, emit], rfl, ?_⟩,
        by simp [xQueueSendFromISR, emit]⟩
      intro e he _; simp at he; subst he; rfl
    · refine ⟨⟨[.xQueueSendFromISR item true, .portYIELD_FROM_ISR],
        by simp [xQueueSendFromISR, emit], rfl, ?_⟩, by simp [xQueueSendFromISR, emit]⟩
      intro e he _; simp at he; rcases he with rfl | rfl <;> rfl

/-- The primitive calls of one callback: at most one enqueue attempt, of an
item whose length is the number of bytes read; the queue receives the item
when the attempt succeeds; from an interrupt handler no call blocks. -/
theorem rx_callback_summary (C : Nat) (env : RxEnv) (s : State) :
    ∃ ev, (tinyusb_cdc_rx_callback C env s).state.trace = s.trace ++ ev ∧
      (env.in_isr = true → ∀ e ∈ ev, e.blocking = false) ∧
      ((posts ev = [] ∧
          (tinyusb_cdc_rx_callback C env s).state.usb_cdc_rx_queue = s.usb_cdc_rx_queue) ∨
       ∃ data p, env.read = some data ∧ posts ev = [(⟨p, data.length⟩, env.send_ok)] ∧
          (tinyusb_cdc_rx_callback C env s).state.usb_cdc_rx_queue
            = s.usb_cdc_rx_queue ++ (if env.send_ok then [⟨p, data.length⟩] else [])) := by
  unfold tinyusb_cdc_rx_callback
  cases hr : env.read with
  | none =>
    refine ⟨[.tinyusb_cdcacm_read C none], by simp [Outcome.state, emit], ?_, Or.inl ⟨rfl, rfl⟩⟩
    intro _ e he; simp at he; subst he; rfl
  | some data =>
    simp only
    generalize hs1 : ({ emit s (.tinyusb_cdcacm_read C (some data)) with
      rx_callback_buf := data ++ (emit s (.tinyusb_cdcacm_read C (some data))).rx_callback_buf.drop
        data.length } : State) = s1
    have ht1 : s1.trace = s.trace ++ [.tinyusb_cdcacm_read C (some data)] := by
      rw [← hs1]; rfl
    have hq1 : s1.usb_cdc_rx_queue = s.usb_cdc_rx_queue := by rw [← hs1]; rfl
    obtain ⟨hm1, hm2⟩ := malloc_fields s1 data.length env.malloc_ok
    generalize malloc s1 data.length env.malloc_ok = M at hm1 hm2 ⊢
    obtain ⟨p, s2⟩ := M
    simp only at hm1 hm2 ⊢
    have hpre : ∀ e ∈ [Event.tinyusb_cdcacm_read C (some data), Event.malloc data.length p,
        Event.memcpy_buf p data.length], e.blocking = false := by
      intro e he; simp at he; rcases he with rfl | rfl | rfl <;> rfl
    cases hst : store (emit s2 (.memcpy_buf p data.length)) p
        ((emit s2 (.memcpy_buf p data.length)).rx_callback_buf.take data.length) with
    | error f =>
      refine ⟨[.tinyusb_cdcacm_read C (some data), .malloc data.length p,
        .memcpy_buf p data.length], ?_, fun _ => hpre, Or.inl ⟨rfl, ?_⟩⟩
      · simp [Outcome.state, emit, hm1, ht1]
      · simp [Outcome.state, emit, hm2, hq1]
    | ok s4 =>
      obtain ⟨h41, h42, -⟩ := store_ok_fields _ _ _ _ hst
      simp only
      cases hp : rx_callback_post env ⟨p, data.length⟩ s4 with
      | error f =>
        refine ⟨[.tinyusb_cdcacm_read C (some data), .malloc data.length p,
          .memcpy_buf p data.length], ?_, fun _ => hpre, Or.inl ⟨rfl, ?_⟩⟩
        · simp [Outcome.state, emit, hm1, ht1, h41]
        · simp [Outcome.state, emit, hm2, hq1, h42]
      | ok s5 =>
        obtain ⟨⟨ev, h51, h52, h53⟩, h54⟩ := rx_callback_post_fields _ _ _ _ hp
        refine ⟨[.tinyusb_cdcacm_read C (some data), .malloc data.length p,
          .memcpy_buf p data.length] ++ ev, ?_, ?_, Or.inr ⟨data, p, rfl, ?_, ?_⟩⟩
        · simp [Outcome.state, emit, hm1, ht1, h41, h51]
        · intro hisr e he
          rcases List.mem_append.mp he with h | h
          · exact hpre e h
          · exact h53 e h hisr
        · rw [posts_append, h52]; rfl
        · simp [Outcome.state, emit, hm2, hq1, h42, h54]

/-! ## A failing `malloc` in `cdc_log` -/

/-- An iteration whose `malloc` fails stops at the `memcpy` through `NULL`. -/
theorem cdc_log_loop_fail_now (C : Nat) (env : LogEnv) (L fuel k o : Nat) (w : Bool)
    (s : State) (hC : 1 ≤ C) (h : o < L) (hm : env.malloc_ok k = false) :
    cdc_log_loop C env L (fuel + 1) k o w s
      = .fault (.null_store (chunk_len C L o 0))
          (emit (emit s (.malloc (chunk_len C L o 0) 0))
            (.memcpy_log_buf 0 o (chunk_len C L o 0))) := by
  have hlen : chunk_len C L o 0 ≠ 0 := by
    simp only [chunk_len, Nat.zero_mul, Nat.add_zero]
    omega
  rw [cdc_log_loop]
  simp only [if_pos h, hm, chunk_len_zero, malloc, Bool.false_eq_true, if_false]
  simp [store, read_log_buf_length, hlen]

/-- When the `malloc` of chunk `m0` is the first to fail, the loop stops at the
`memcpy` of that chunk, after `m0` complete iterations. -/
theorem cdc_log_loop_malloc_fails (C : Nat) (env : LogEnv) (L : Nat) (hC : 1 ≤ C) :
    ∀ (m0 fuel k o : Nat) (w : Bool) (s : State), heap_fresh s → L - o ≤ fuel →
      m0 < nchunks C (L - o) → (∀ j, j < m0 → env.malloc_ok (k + j) = true) →
      env.malloc_ok (k + m0) = false →
      cdc_log_loop C env L fuel k o w s
        = .fault (.null_store (chunk_len C L o m0))
            (emit (emit (after_chunks C env L k o s m0) (.malloc (chunk_len C L o m0) 0))
              (.memcpy_log_buf 0 (o + m0 * C) (chunk_len C L o m0))) := by
  intro m0
  induction m0 with
  | zero =>
    intro fuel k o w s _ hfuel hn _ hfail
    have hoL : o < L := by
      by_contra hcon
      have : L - o = 0 := by omega
      rw [this, nchunks_zero C hC] at hn
      omega
    obtain ⟨fuel', rfl⟩ : ∃ f, fuel = f + 1 := ⟨fuel - 1, by omega⟩
    rw [cdc_log_loop_fail_now C env L fuel' k o w s hC hoL (by simpa using hfail),
      after_chunks_zero]
    simp
  | succ m0 ih =>
    intro fuel k o w s hf hfuel hn hok hfail
    have hbig : C < L - o := by
      by_contra hcon
      rcases Nat.eq_zero_or_pos (L - o) with h0 | hpos
      · rw [h0, nchunks_zero C hC] at hn; omega
      · rw [nchunks_small C (L - o) hpos (by omega)] at hn; omega
    have hoL : o < L := by omega
    obtain ⟨fuel', rfl⟩ : ∃ f, fuel = f + 1 := ⟨fuel - 1, by omega⟩
    have hnb := nchunks_big C (L - o) hC hbig
    have hlen : chunk_len C L o 0 = C := by simp [chunk_len]; omega
    have hm0 : env.malloc_ok k = true := by simpa using hok 0 (by omega)
    rw [cdc_log_loop_step C env L fuel' k o w s hoL hm0 hf, hlen]
    have e : L - (o + C) = L - o - C := by omega
    rw [ih fuel' (k + 1) (o + C) _ _ (heap_fresh_after C env L k o s 1 hf) (by omega)
      (by rw [e]; omega)
      (by intro j hj
          have := hok (j + 1) (by omega)
          rw [← this]; congr 1; omega)
      (by rw [← hfail]; congr 1; omega)]
    have e1 : chunk_len C L (o + C) m0 = chunk_len C L o (m0 + 1) := by
      simp only [chunk_len]; congr 2; ring
    have e2 : o + C + m0 * C = o + (m0 + 1) * C := by ring
    rw [after_chunks_succ, e1, e2]

/-- The call of `cdc_log` in which the `malloc` of chunk `m0` is the first to fail. -/
theorem cdc_log_malloc_fails (C fuel : Nat) (env : LogEnv) (s : State)
    (tag format : List Char) (args : List va_arg) (m0 : Nat)
    (hC : 1 ≤ C) (htake : env.take = true) (hheap : heap_fresh s)
    (hfuel : (render_output s tag format args).length ≤ fuel)
    (hm0 : m0 < nchunks C (render_output s tag format args).length)
    (hok : ∀ j, j < m0 → env.malloc_ok j = true) (hfail : env.malloc_ok m0 = false) :
    cdc_log C fuel env s tag format args
      = .fault (.null_store (min C ((render_output s tag format args).length - m0 * C)))
          (emit (emit (after_chunks C env (render_output s tag format args).length 0 0
              (cdc_log_render (emit s (.xSemaphoreTake MAX_DELAY true)) tag format args) m0)
            (.malloc (min C ((render_output s tag format args).length - m0 * C)) 0))
            (.memcpy_log_buf 0 (m0 * C)
              (min C ((render_output s tag format args).length - m0 * C)))) := by
  simp only [cdc_log, htake, if_true, render_output_emit]
  have h := cdc_log_loop_malloc_fails C env (render_output s tag format args).length hC m0
    fuel 0 0 false
    (cdc_log_render (emit s (.xSemaphoreTake MAX_DELAY true)) tag format args)
    (heap_fresh_render s _ tag format args hheap) (by omega) (by simpa using hm0)
    (by intro j hj; simpa using hok j hj) (by simpa using hfail)
  simpa [chunk_len] using h

/-! ## The three courses of `tinyusb_cdc_rx_callback` after a read -/

theorem rx_callback_post_new (env : RxEnv) (s : State) (h : List (Nat × List Char))
    (p len : Nat) (bytes : List Char) (hp0 : p ≠ 0) (hp : ∀ b ∈ h, b.1 ≠ p)
    (hs : s.heap = h ++ [(p, bytes)]) :
    ∃ s', rx_callback_post env ⟨p, len⟩ s = .ok s' ∧
      s'.usb_cdc_rx_queue = s.usb_cdc_rx_queue ++ (if env.send_ok then [⟨p, len⟩] else []) ∧
      s'.heap = h ++ (if env.send_ok then [(p, bytes)] else []) ∧ s'.brk = s.brk := by
  cases hisr : env.in_isr <;> cases hok : env.send_ok <;> cases hw : env.woken <;>
    simp [rx_callback_post, hisr, hok, hw, xQueueSend, xQueueSendFromISR, emit, free, hp0, hs,
      lookup_append_new _ _ _ hp, filter_new _ _ _ hp]

/-- The callback whose `malloc` succeeds returns; the chunk is in the queue and
live when the enqueue succeeded, and is neither when it failed. -/
theorem rx_callback_malloc_ok (C : Nat) (env : RxEnv) (s : State) (data : List Char)
    (hr : env.read = some data) (hm : env.malloc_ok = true) (hf : heap_fresh s) :
    ∃ s', tinyusb_cdc_rx_callback C env s = .returned s' none ∧
      s'.usb_cdc_rx_queue
        = s.usb_cdc_rx_queue ++ (if env.send_ok then [⟨s.brk, data.length⟩] else []) ∧
      s'.heap = s.heap ++ (if env.send_ok then [(s.brk, data)] else []) ∧
      s'.brk = s.brk + 1 := by
  unfold tinyusb_cdc_rx_callback
  simp only [hr, hm]
  generalize hs1 : ({ emit s (.tinyusb_cdcacm_read C (some data)) with
    rx_callback_buf := data ++ (emit s (.tinyusb_cdcacm_read C (some data))).rx_callback_buf.drop
      data.length } : State) = s1
  have hf1 : heap_fresh s1 := by rw [← hs1]; exact hf
  have hh1 : s1.heap = s.heap := by rw [← hs1]; rfl
  have hb1 : s1.brk = s.brk := by rw [← hs1]; rfl
  have hq1 : s1.usb_cdc_rx_queue = s.usb_cdc_rx_queue := by rw [← hs1]; rfl
  have hbytes : (emit (malloc s1 data.length true).2
      (.memcpy_buf (malloc s1 data.length true).1 data.length)).rx_callback_buf.take data.length
        = data := by
    rw [← hs1]; simp [malloc, emit]
  rw [hbytes, malloc_store s1 data.length _ data hf1 rfl]
  simp only
  have hm1 : (malloc s1 data.length true).1 = s1.brk := by simp [malloc]
  have hb : s1.brk ≠ 0 := Nat.pos_iff_ne_zero.mp hf1.1
  obtain ⟨s', h1, h2, h3, h4⟩ := rx_callback_post_new env
    ({ s1 with heap := s1.heap ++ [(s1.brk, data)], brk := s1.brk + 1,
               trace := s1.trace ++ [.malloc data.length s1.brk,
                 .memcpy_buf (malloc s1 data.length true).1 data.length] } : State)
    s1.heap s1.brk data.length data hb (heap_fresh_ne s1 hf1) rfl
  simp only [hm1] at h1 h2 h4 ⊢
  rw [h1]
  refine ⟨s', rfl, ?_, ?_, ?_⟩
  · rw [h2]; simp [hq1, hb1]
  · rw [h3]; simp [hh1, hb1]
  · rw [h4]; simp [hb1]

/-- The callback whose `malloc` fails for a chunk of at least one byte stops
at the `memcpy` through `NULL`; nothing is enqueued. -/
theorem rx_callback_malloc_fails (C : Nat) (env : RxEnv) (s : State) (data : List Char)
    (hr : env.read = some data) (hd : data ≠ []) (hm : env.malloc_ok = false) :
    ∃ s', tinyusb_cdc_rx_callback C env s = .fault (.null_store data.length) s' ∧
      s'.trace = s.trace ++ [.tinyusb_cdcacm_read C (some data), .malloc data.length 0,
        .memcpy_buf 0 data.length] ∧
      s'.usb_cdc_rx_queue = s.usb_cdc_rx_queue ∧ s'.heap = s.heap ∧ s'.brk = s.brk := by
  have hl : data.length ≠ 0 := fun h => hd (List.length_eq_zero.mp h)
  unfold tinyusb_cdc_rx_callback
  simp only [hr, hm, malloc, Bool.false_eq_true, if_false]
  simp [store, emit, hl]

/-- The callback whose `malloc` fails for an empty chunk returns; it has posted
an item with null storage. -/
theorem rx_callback_malloc_fails_empty (C : Nat) (env : RxEnv) (s : State)
    (hr : env.read = some []) (hm : env.malloc_ok = false) :
    ∃ s', tinyusb_cdc_rx_callback C env s = .returned s' none ∧
      posts s'.trace = posts s.trace ++ [(⟨0, 0⟩, env.send_ok)] ∧
      s'.usb_cdc_rx_queue = s.usb_cdc_rx_queue ++ (if env.send_ok then [⟨0, 0⟩] else []) ∧
      s'.heap = s.heap ∧ s'.brk = s.brk := by
  unfold tinyusb_cdc_rx_callback
  simp only [hr, hm, malloc, Bool.false_eq_true, if_false]
  cases hisr : env.in_isr <;> cases hok : env.send_ok <;> cases hw : env.woken <;>
    simp [store, emit, rx_callback_post, hisr, hok, hw, xQueueSend, xQueueSendFromISR, free,
      posts_append, posts]

/-! ## The ownership invariant -/

theorem Inv_congr (s t : State) (hq : t.usb_cdc_rx_queue = s.usb_cdc_rx_queue)
    (hh : t.heap = s.heap) (hb : t.brk = s.brk) (h : Inv s) : Inv t := by
  unfold Inv heap_fresh at *
  rw [hq, hh, hb]
  exact h

theorem Inv_init : Inv State.init := by
  refine ⟨⟨by decide, by simp [State.init]⟩, by simp [State.init], by simp [State.init], ?_⟩
  simp [State.init]

/-- A new chunk: allocated, filled, and then either queued or freed. -/
theorem Inv_alloc (s t : State) (ok : Bool) (n : Nat) (bytes : List Char)
    (hq : t.usb_cdc_rx_queue = s.usb_cdc_rx_queue ++ (if ok then [⟨s.brk, n⟩] else []))
    (hh : t.heap = s.heap ++ (if ok then [(s.brk, bytes)] else []))
    (hb : t.brk = s.brk + 1) (hn : bytes.length = n) (h : Inv s) : Inv t := by
  obtain ⟨⟨h0, hf⟩, hnd, hmap, hnull⟩ := h
  have hb0 : s.brk ≠ 0 := Nat.pos_iff_ne_zero.mp h0
  cases ok
  · simp only [Bool.false_eq_true, if_false, List.append_nil] at hq hh
    refine ⟨⟨by omega, ?_⟩, by rw [hh]; exact hnd, by rw [hh, hq]; exact hmap,
      by rw [hq]; exact hnull⟩
    intro b hbm
    rw [hh] at hbm
    have := hf b hbm
    omega
  · simp only [if_true] at hq hh
    refine ⟨⟨by omega, ?_⟩, ?_, ?_, ?_⟩
    · intro b hbm
      rw [hh] at hbm
      rcases List.mem_append.mp hbm with h1 | h1
      · have := hf b h1; omega
      · simp only [List.mem_singleton] at h1
        subst h1
        simp only
        omega
    · rw [hh, List.map_append, List.nodup_append]
      refine ⟨hnd, by simp, ?_⟩
      intro a ha1 ha2
      simp only [List.map_cons, List.map_nil, List.mem_singleton] at ha2
      subst ha2
      obtain ⟨b, hbm, hbe⟩ := List.mem_map.mp ha1
      have := hf b hbm
      omega
    · rw [hh, hq, List.map_append, List.filter_append, hmap]
      simp [hb0, hn]
    · intro c hc
      rw [hq] at hc
      rcases List.mem_append.mp hc with h1 | h1
      · exact hnull c h1
      · simp only [List.mem_singleton] at h1
        subst h1
        intro h2
        exact absurd h2 hb0

/-- A chunk with null storage and no bytes entering the queue. -/
theorem Inv_null (s t : State) (ok : Bool)
    (hq : t.usb_cdc_rx_queue = s.usb_cdc_rx_queue ++ (if ok then [⟨0, 0⟩] else []))
    (hh : t.heap = s.heap) (hb : t.brk = s.brk) (h : Inv s) : Inv t := by
  cases ok
  · simp only [Bool.false_eq_true, if_false, List.append_nil] at hq
    exact Inv_congr s t hq hh hb h
  · obtain ⟨hfr, hnd, hmap, hnull⟩ := h
    simp only [if_true] at hq
    refine ⟨by unfold heap_fresh; rw [hh, hb]; exact hfr, by rw [hh]; exact hnd, ?_, ?_⟩
    · rw [hh, hq, List.filter_append, hmap]
      simp
    · intro c hc
      rw [hq] at hc
      rcases List.mem_append.mp hc with h1 | h1
      · exact hnull c h1
      · simp only [List.mem_singleton] at h1
        subst h1
        intro _; rfl

theorem Inv_after_one (C : Nat) (env : LogEnv) (L k o : Nat) (s : State) (h : Inv s) :
    Inv (after_chunks C env L k o s 1) := by
  apply Inv_alloc s _ (env.send_ok k) (chunk_len C L o 0)
    (read_log_buf s (o + 0 * C) (chunk_len C L o 0)) _ _ rfl (read_log_buf_length _ _ _) h
  · simp [after_chunks, flatMap_range_one, chunk_item]
  · simp [after_chunks, flatMap_range_one]

/-- Every state in which the loop of `cdc_log` can end satisfies the
invariant, and the only memory error it can stop at is the store through `NULL`. -/
theorem cdc_log_loop_inv (C : Nat) (env : LogEnv) (L : Nat) (hC : 1 ≤ C) :
    ∀ (fuel k o : Nat) (w : Bool) (s : State), Inv s →
      Inv (cdc_log_loop C env L fuel k o w s).state ∧
      ∀ f, (cdc_log_loop C env L fuel k o w s).fault_of = some f → ∃ n, f = .null_store n := by
  intro fuel
  induction fuel with
  | zero =>
    intro k o w s h
    by_cases hoL : o < L
    · simp only [cdc_log_loop, if_pos hoL, Outcome.state, Outcome.fault_of]
      exact ⟨h, by simp⟩
    · rw [cdc_log_loop_exit _ _ _ _ _ _ _ _ hoL, cdc_log_epilogue_eq]
      exact ⟨Inv_congr s _ rfl rfl rfl h, by simp [Outcome.fault_of]⟩
  | succ fuel ih =>
    intro k o w s h
    by_cases hoL : o < L
    · cases hm : env.malloc_ok k
      · rw [cdc_log_loop_fail_now C env L fuel k o w s hC hoL hm]
        exact ⟨Inv_congr s _ rfl rfl rfl h, by simp [Outcome.fault_of]⟩
      · rw [cdc_log_loop_step C env L fuel k o w s hoL hm h.1]
        exact ih _ _ _ _ (Inv_after_one C env L k o s h)
    · rw [cdc_log_loop_exit _ _ _ _ _ _ _ _ hoL, cdc_log_epilogue_eq]
      exact ⟨Inv_congr s _ rfl rfl rfl h, by simp [Outcome.fault_of]⟩

theorem cdc_log_inv (C fuel : Nat) (env : LogEnv) (s : State) (tag format : List Char)
    (args : List va_arg) (hC : 1 ≤ C) (h : Inv s) :
    Inv (cdc_log C fuel env s tag format args).state ∧
    ∀ f, (cdc_log C fuel env s tag format args).fault_of = some f → ∃ n, f = .null_store n := by
  unfold cdc_log
  cases ht : env.take
  · simp only [Bool.false_eq_true, if_false, Outcome.state, Outcome.fault_of]
    exact ⟨Inv_congr s _ rfl rfl rfl h, by simp⟩
  · simp only [if_true]
    exact cdc_log_loop_inv C env _ hC fuel 0 0 false _ (Inv_congr s _ rfl rfl rfl h)

theorem rx_callback_inv (C : Nat) (env : RxEnv) (s : State) (h : Inv s) :
    Inv (tinyusb_cdc_rx_callback C env s).state ∧
    ∀ f, (tinyusb_cdc_rx_callback C env s).fault_of = some f → ∃ n, f = .null_store n := by
  cases hr : env.read with
  | none =>
    simp only [tinyusb_cdc_rx_callback, hr, Outcome.state, Outcome.fault_of]
    exact ⟨Inv_congr s _ rfl rfl rfl h, by simp⟩
  | some data =>
    cases hm : env.malloc_ok
    · by_cases hd : data = []
      · subst hd
        obtain ⟨s', h1, -, h3, h4, h5⟩ := rx_callback_malloc_fails_empty C env s hr hm
        rw [h1]
        exact ⟨Inv_null s s' env.send_ok h3 h4 h5 h, by simp [Outcome.fault_of]⟩
      · obtain ⟨s', h1, -, h3, h4, h5⟩ := rx_callback_malloc_fails C env s data hr hd hm
        rw [h1]
        exact ⟨Inv_congr s s' h3 h4 h5 h, by simp [Outcome.fault_of]⟩
    · obtain ⟨s', h1, h2, h3, h4⟩ := rx_callback_malloc_ok C env s data hr hm h.1
      rw [h1]
      exact ⟨Inv_alloc s s' env.send_ok data.length data h2 h3 h4 rfl h,
        by simp [Outcome.fault_of]⟩

/-! ## `cdc_process_task` -/

theorem chunk_bytes_congr (s t : State) (hh : t.heap = s.heap) (c : buf_len_t) :
    chunk_bytes t c = chunk_bytes s c := by
  simp [chunk_bytes, load, hh]

/-- One iteration on a non-empty queue: the oldest chunk is received, its
bytes are written, the endpoint is flushed, the storage is freed. -/
theorem process_iter_ok (s : State) (c : buf_len_t) (rest : List buf_len_t)
    (h : Inv s) (hq : s.usb_cdc_rx_queue = c :: rest) :
    ∃ s', cdc_process_task_iter s = .returned s' none ∧ Inv s' ∧
      s'.usb_cdc_rx_queue = rest ∧
      s'.trace = s.trace ++ process_events s c ∧
      (chunk_bytes s c).length = c.len ∧
      (∀ c' ∈ rest, chunk_bytes s' c' = chunk_bytes s c') := by
  obtain ⟨⟨h0, hf⟩, hnd, hmap, hnull⟩ := h
  by_cases hc0 : c.buf = 0
  · have hlen : c.len = 0 := hnull c (by rw [hq]; simp) hc0
    have hcb : chunk_bytes s c = [] := by simp [chunk_bytes, load, hlen]
    refine ⟨{ s with usb_cdc_rx_queue := rest, trace := s.trace ++ process_events s c },
      ?_, ?_, rfl, rfl, by rw [hcb, hlen]; rfl, fun c' _ => chunk_bytes_congr _ _ rfl c'⟩
    · simp [cdc_process_task_iter, hq, load, hlen, free, hc0, emit, process_events, hcb]
    · refine ⟨⟨h0, hf⟩, hnd, ?_, ?_⟩
      · rw [hmap, hq]
        simp [hc0]
      · intro c' hc'
        exact hnull c' (by rw [hq]; simp [hc'])
  · have hfil : s.usb_cdc_rx_queue.filter (fun c => c.buf != 0)
        = c :: rest.filter (fun c => c.buf != 0) := by
      rw [hq]; simp [hc0]
    rw [hfil] at hmap
    cases hheap : s.heap with
    | nil => rw [hheap] at hmap; simp at hmap
    | cons b h' =>
      rw [hheap] at hmap hnd
      simp only [List.map_cons, List.cons.injEq] at hmap
      obtain ⟨hb, hmap'⟩ := hmap
      obtain ⟨p, blk⟩ := b
      have hp : p = c.buf := by rw [← hb]
      have hbl : blk.length = c.len := by rw [← hb]
      subst hp
      simp only [List.map_cons, List.nodup_cons] at hnd
      obtain ⟨hnotin, hnd'⟩ := hnd
      have hne : ∀ x ∈ h', x.1 ≠ c.buf := by
        intro x hx hxe
        exact hnotin (List.mem_map.mpr ⟨x, hx, hxe⟩)
      have hlook : List.lookup c.buf ((c.buf, blk) :: h') = some blk := by simp
      have hfilter : ((c.buf, blk) :: h').filter (fun b => b.1 != c.buf) = h' := by
        rw [List.filter_cons_of_neg (by simp)]
        apply List.filter_eq_self.mpr
        intro x hx
        simpa using hne x hx
      have hcb : chunk_bytes s c = blk := by
        by_cases hl0 : c.len = 0
        · have : blk = [] := List.length_eq_zero.mp (by omega)
          simp [chunk_bytes, load, hl0, this]
        · simp [chunk_bytes, load, hl0, hheap, hbl]
      have hload : load s c.buf c.len = .ok blk := by
        by_cases hl0 : c.len = 0
        · have : blk = [] := List.length_eq_zero.mp (by omega)
          simp [load, hl0, this]
        · simp [load, hl0, hheap, hbl]
      refine ⟨{ s with usb_cdc_rx_queue := rest, heap := h',
                       trace := s.trace ++ process_events s c }, ?_, ?_, rfl, rfl,
        by rw [hcb, hbl], ?_⟩
      · have hload' : ∀ e, load (emit { s with usb_cdc_rx_queue := rest } e) c.buf c.len
            = .ok blk := fun e => hload
        simp only [cdc_process_task_iter, hq, hload']
        simp [free, hc0, emit, hheap, hfilter, process_events, hcb]
      · refine ⟨⟨h0, ?_⟩, hnd', hmap', ?_⟩
        · intro x hx
          exact hf x (by rw [hheap]; simp [hx])
        · intro c' hc'
          exact hnull c' (by rw [hq]; simp [hc'])
      · intro c' hc'
        by_cases hl0 : c'.len = 0
        · simp [chunk_bytes, load, hl0]
        · have hc'0 : c'.buf ≠ 0 := fun h0' => hl0 (hnull c' (by rw [hq]; simp [hc']) h0')
          have hmem : c' ∈ rest.filter (fun c => c.buf != 0) := by
            simp [List.mem_filter, hc', hc'0]
          rw [← hmap'] at hmem
          obtain ⟨x, hx, hxe⟩ := List.mem_map.mp hmem
          have hxb : x.1 = c'.buf := by rw [← hxe]
          have hneq : c'.buf ≠ c.buf := by rw [← hxb]; exact hne x hx
          have hbeq : (c'.buf == c.buf) = false := by simpa using hneq
          simp [chunk_bytes, load, hl0, hheap, List.lookup, hbeq]

theorem lookup_of_mem_nodup (h : List (Nat × List Char)) (hnd : (h.map Prod.fst).Nodup)
    (x : Nat × List Char) (hx : x ∈ h) : h.lookup x.1 = some x.2 := by
  induction h with
  | nil => simp at hx
  | cons a t ih =>
    simp only [List.map_cons, List.nodup_cons] at hnd
    obtain ⟨a1, a2⟩ := a
    rcases List.mem_cons.mp hx with rfl | hxt
    · simp
    · have hne : x.1 ≠ a1 := by
        intro he
        exact hnd.1 (List.mem_map.mpr ⟨x, hxt, he⟩)
      have hbeq : (x.1 == a1) = false := by simpa using hne
      simp only [List.lookup, hbeq]
      exact ih hnd.2 hxt

/-- Under the invariant every queued chunk holds exactly `len` readable bytes. -/
theorem chunk_bytes_length (s : State) (h : Inv s) (c : buf_len_t)
    (hc : c ∈ s.usb_cdc_rx_queue) : (chunk_bytes s c).length = c.len := by
  obtain ⟨-, hnd, hmap, hnull⟩ := h
  by_cases hl0 : c.len = 0
  · simp [chunk_bytes, load, hl0]
  · have hc0 : c.buf ≠ 0 := fun h0 => hl0 (hnull c hc h0)
    have hmem : c ∈ s.usb_cdc_rx_queue.filter (fun c => c.buf != 0) := by
      simp [List.mem_filter, hc, hc0]
    rw [← hmap] at hmem
    obtain ⟨x, hx, hxe⟩ := List.mem_map.mp hmem
    have hxb : x.1 = c.buf := by rw [← hxe]
    have hxl : x.2.length = c.len := by rw [← hxe]
    have hlook := lookup_of_mem_nodup s.heap hnd x hx
    rw [hxb] at hlook
    simp [chunk_bytes, load, hl0, hlook, hxl]

theorem Inv_empty_queue (s : State) (h : Inv s) (hq : s.usb_cdc_rx_queue = []) :
    s.heap = [] := by
  have := h.2.2.1
  rw [hq] at this
  simpa using this

/-- Enough iterations of the loop of `cdc_process_task` empty the queue:
each chunk is received, written, flushed and freed, oldest first; the
iterations that find the queue empty only fail to receive. -/
theorem process_loop_drains :
    ∀ (n : Nat) (s : State), Inv s → s.usb_cdc_rx_queue.length ≤ n →
      ∃ s', cdc_process_task_loop n s = .returned s' none ∧
        s'.usb_cdc_rx_queue = [] ∧ s'.heap = [] ∧
        s'.trace = s.trace ++ s.usb_cdc_rx_queue.flatMap (process_events s) ++
          List.replicate (n - s.usb_cdc_rx_queue.length) (.xQueueReceive MAX_DELAY none) := by
  intro n
  induction n with
  | zero =>
    intro s h hlen
    have hq : s.usb_cdc_rx_queue = [] := List.length_eq_zero.mp (by omega)
    exact ⟨s, rfl, hq, Inv_empty_queue s h hq, by simp [hq]⟩
  | succ n ih =>
    intro s h hlen
    cases hq : s.usb_cdc_rx_queue with
    | nil =>
      have hiter : cdc_process_task_iter s
          = .returned (emit s (.xQueueReceive MAX_DELAY none)) none := by
        simp [cdc_process_task_iter, hq]
      obtain ⟨s', h1, h2, h3, h4⟩ := ih (emit s (.xQueueReceive MAX_DELAY none))
        (Inv_congr s _ rfl rfl rfl h) (by simp [emit, hq])
      refine ⟨s', ?_, h2, h3, ?_⟩
      · simp only [cdc_process_task_loop, hiter]
        exact h1
      · rw [h4]
        simp [emit, hq, List.replicate_succ]
    | cons c rest =>
      obtain ⟨s1, hiter, hinv1, hq1, ht1, -, hcb⟩ := process_iter_ok s c rest h hq
      obtain ⟨s', h1, h2, h3, h4⟩ := ih s1 hinv1 (by rw [hq1]; rw [hq] at hlen; simpa using hlen)
      refine ⟨s', ?_, h2, h3, ?_⟩
      · simp only [cdc_process_task_loop, hiter]
        exact h1
      · rw [h4, ht1, hq1]
        have hev : rest.flatMap (process_events s1) = rest.flatMap (process_events s) := by
          apply List.flatMap_congr
          intro c' hc'
          simp [process_events, hcb c' hc']
        rw [hev]
        simp

/-! ## Callbacks against a full queue -/

theorem rx_callback_full (C : Nat) (env : RxEnv) (s : State) (h : Inv s)
    (hsend : env.send_ok = false) :
    (tinyusb_cdc_rx_callback C env s).state.heap = s.heap ∧
    (tinyusb_cdc_rx_callback C env s).state.usb_cdc_rx_queue = s.usb_cdc_rx_queue := by
  cases hr : env.read with
  | none => simp [tinyusb_cdc_rx_callback, hr, Outcome.state, emit]
  | some data =>
    cases hm : env.malloc_ok
    · by_cases hd : data = []
      · subst hd
        obtain ⟨s', h1, -, h3, h4, -⟩ := rx_callback_malloc_fails_empty C env s hr hm
        rw [h1]
        simp [Outcome.state, h3, h4, hsend]
      · obtain ⟨s', h1, -, h3, h4, -⟩ := rx_callback_malloc_fails C env s data hr hd hm
        rw [h1]
        exact ⟨h4, h3⟩
    · obtain ⟨s', h1, h2, h3, -⟩ := rx_callback_malloc_ok C env s data hr hm h.1
      rw [h1]
      simp [Outcome.state, h2, h3, hsend]

/-- Callbacks against a full queue neither grow the heap nor change the queue. -/
theorem rx_storm_full (C : Nat) :
    ∀ (envs : List RxEnv) (s : State), Inv s → s.usb_cdc_rx_queue.length = QUEUE_LENGTH →
      (rx_storm C envs s).state.heap = s.heap ∧
      (rx_storm C envs s).state.usb_cdc_rx_queue = s.usb_cdc_rx_queue := by
  intro envs
  induction envs with
  | nil => intro s _ _; exact ⟨rfl, rfl⟩
  | cons e es ih =>
    intro s h hfull
    have hroom : queue_has_room s = false := by
      simp [queue_has_room, hfull]
    have hsend : ({ e with send_ok := e.send_ok && queue_has_room s } : RxEnv).send_ok
        = false := by simp [hroom]
    have hcb := rx_callback_full C { e with send_ok := e.send_ok && queue_has_room s } s h hsend
    have hinv := (rx_callback_inv C { e with send_ok := e.send_ok && queue_has_room s } s h).1
    simp only [rx_storm]
    generalize tinyusb_cdc_rx_callback C { e with send_ok := e.send_ok && queue_has_room s } s
      = o at hcb hinv
    cases o with
    | returned s' r =>
      simp only [Outcome.state] at hcb hinv
      obtain ⟨g1, g2⟩ := ih s' hinv (by rw [hcb.2]; exact hfull)
      exact ⟨by rw [g1, hcb.1], by rw [g2, hcb.2]⟩
    | fault f s' => exact hcb
    | out_of_fuel s' => exact hcb

/-! ## The bytes written to the endpoint -/

theorem transport_bytes_append (a b : List Event) :
    transport_bytes (a ++ b) = transport_bytes a ++ transport_bytes b := by
  simp [transport_bytes]

theorem transport_bytes_process (s : State) (q : List buf_len_t) :
    transport_bytes (q.flatMap (process_events s)) = (q.map (chunk_bytes s)).flatten := by
  induction q with
  | nil => rfl
  | cons c t ih =>
    rw [List.flatMap_cons, transport_bytes_append, ih]
    simp [transport_bytes, process_events]

theorem transport_bytes_idle (n : Nat) :
    transport_bytes (List.replicate n (.xQueueReceive MAX_DELAY none)) = [] := by
  simp [transport_bytes]

/-! ## Two concrete states -/

theorem Inv_state_after_log : Inv state_after_log :=
  (cdc_log_inv 8 22 env_task State.init "BG".toList "Hello World %s".toList
    [.str "dewe".toList] (by decide) Inv_init).1

theorem Inv_chunks_of_one (n : Nat) : Inv (state_chunks_of_one n) := by
  unfold state_chunks_of_one
  refine ⟨⟨Nat.succ_pos n, ?_⟩, ?_, ?_, ?_⟩
  · intro b hb
    simp only [List.mem_map, List.mem_range] at hb
    obtain ⟨i, hi, rfl⟩ := hb
    simp only
    omega
  · simp only [List.map_map]
    apply List.Nodup.map _ (List.nodup_range _)
    intro a b hab
    simpa using hab
  · simp only [List.map_map]
    rw [List.filter_eq_self.mpr]
    · rfl
    · intro c hc
      simp only [List.mem_map, List.mem_range] at hc
      obtain ⟨i, -, rfl⟩ := hc
      simp
  · intro c hc h0
    simp only [List.mem_map, List.mem_range] at hc
    obtain ⟨i, -, rfl⟩ := hc
    simp at h0

theorem length_chunks_of_one (n : Nat) :
    (state_chunks_of_one n).usb_cdc_rx_queue.length = n := by
  simp [state_chunks_of_one]

theorem Inv_state_full : Inv state_full := Inv_chunks_of_one QUEUE_LENGTH

theorem state_full_is_full : state_full.usb_cdc_rx_queue.length = QUEUE_LENGTH :=
  length_chunks_of_one QUEUE_LENGTH

/-! ## The first primitive call of `cdc_log` -/

/-- The loop of `cdc_log` only adds to the trace. -/
theorem cdc_log_loop_trace (C : Nat) (env : LogEnv) (L : Nat) :
    ∀ (fuel k o : Nat) (w : Bool) (s : State),
      ∃ ev, (cdc_log_loop C env L fuel k o w s).state.trace = s.trace ++ ev := by
  intro fuel
  induction fuel with
  | zero =>
    intro k o w s
    by_cases hoL : o < L
    · exact ⟨[], by simp [cdc_log_loop, hoL, Outcome.state]⟩
    · rw [cdc_log_loop_exit _ _ _ _ _ _ _ _ hoL, cdc_log_epilogue_eq]
      exact ⟨_, rfl⟩
  | succ fuel ih =>
    intro k o w s
    by_cases hoL : o < L
    · rw [cdc_log_loop]
      simp only [if_pos hoL]
      obtain ⟨hm1, -⟩ := malloc_fields s (if L - o > C then C else L - o) (env.malloc_ok k)
      generalize malloc s (if L - o > C then C else L - o) (env.malloc_ok k) = M at hm1 ⊢
      obtain ⟨p, s1⟩ := M
      simp only at hm1 ⊢
      cases hst : store (emit s1 (.memcpy_log_buf p o (if L - o > C then C else L - o))) p
          (read_log_buf (emit s1 (.memcpy_log_buf p o (if L - o > C then C else L - o))) o
            (if L - o > C then C else L - o)) with
      | error f =>
        exact ⟨[Event.malloc (if L - o > C then C else L - o) p,
          Event.memcpy_log_buf p o (if L - o > C then C else L - o)],
          by simp [Outcome.state, emit, hm1]⟩
      | ok s3 =>
        obtain ⟨h31, -, -⟩ := store_ok_fields _ _ _ _ hst
        simp only
        cases hp : cdc_log_post env k ⟨p, if L - o > C then C else L - o⟩ s3 with
        | error f =>
          exact ⟨[Event.malloc (if L - o > C then C else L - o) p,
            Event.memcpy_log_buf p o (if L - o > C then C else L - o)],
            by simp [Outcome.state, emit, hm1, h31]⟩
        | ok s4 =>
          obtain ⟨⟨ev, h41, -, -⟩, -⟩ := cdc_log_post_fields _ _ _ _ _ hp
          simp only
          obtain ⟨ev', hev'⟩ := ih (k + 1) (o + if L - o > C then C else L - o)
            (w || (env.in_isr && env.send_ok k && env.woken k)) s4
          refine ⟨[Event.malloc (if L - o > C then C else L - o) p,
            Event.memcpy_log_buf p o (if L - o > C then C else L - o)] ++ ev ++ ev', ?_⟩
          rw [hev', h41, h31]
          simp [emit, hm1]
    · rw [cdc_log_loop_exit _ _ _ _ _ _ _ _ hoL, cdc_log_epilogue_eq]
      exact ⟨_, rfl⟩

/-- Whatever the context of the call, the first primitive `cdc_log` calls is
`xSemaphoreTake` with the tick count `0xffffffff`. -/
theorem cdc_log_takes_mutex_first (C fuel : Nat) (env : LogEnv) (s : State)
    (tag format : List Char) (args : List va_arg) :
    ∃ ev, (cdc_log C fuel env s tag format args).state.trace
        = s.trace ++ .xSemaphoreTake 0xffffffff env.take :: ev ∧
      (Event.xSemaphoreTake 0xffffffff env.take).blocking = true := by
  unfold cdc_log
  cases ht : env.take
  · exact ⟨[], by simp [Outcome.state, emit, MAX_DELAY], rfl⟩
  · simp only [if_true]
    obtain ⟨ev, hev⟩ := cdc_log_loop_trace C env
      (render_output (emit s (.xSemaphoreTake MAX_DELAY true)) tag format args).length fuel 0 0
      false (cdc_log_render (emit s (.xSemaphoreTake MAX_DELAY true)) tag format args)
    exact ⟨ev, by rw [hev]; simp [cdc_log_render, emit, MAX_DELAY], rfl⟩

/-- Called from an interrupt handler, `tinyusb_cdc_rx_callback` calls no
blocking primitive, and against a full queue its `xQueueSendFromISR` fails and
the chunk is freed. -/
theorem rx_callback_isr_nonblocking (C : Nat) (env : RxEnv) (s : State)
    (hisr : env.in_isr = true) :
    ∃ ev, (tinyusb_cdc_rx_callback C env s).state.trace = s.trace ++ ev ∧
      ∀ e ∈ ev, e.blocking = false := by
  obtain ⟨ev, h1, h2, -⟩ := rx_callback_summary C env s
  exact ⟨ev, h1, h2 hisr⟩

/-! ## Reachable states -/

theorem step_inv (C : Nat) (hC : 1 ≤ C) (s : State) (op : Op) (h : Inv s) :
    Inv (step C s op).state := by
  cases op with
  | log fuel env tag format args => exact (cdc_log_inv C fuel env s tag format args hC h).1
  | rx env => exact (rx_callback_inv C env s h).1
  | process =>
    cases hq : s.usb_cdc_rx_queue with
    | nil =>
      have hiter : cdc_process_task_iter s
          = .returned (emit s (.xQueueReceive MAX_DELAY none)) none := by
        simp [cdc_process_task_iter, hq]
      simp only [step, hiter, Outcome.state]
      exact Inv_congr s _ rfl rfl rfl h
    | cons c rest =>
      obtain ⟨s1, hiter, hinv1, -⟩ := process_iter_ok s c rest h hq
      simp only [step, hiter, Outcome.state]
      exact hinv1

/-- Every state reached from reset by calls of the producers and iterations of
the consumer satisfies the ownership invariant. -/
theorem run_inv (C : Nat) (hC : 1 ≤ C) :
    ∀ (ops : List Op) (s : State), Inv s → Inv (run C ops s).state := by
  intro ops
  induction ops with
  | nil => intro s h; exact h
  | cons op ops ih =>
    intro s h
    have hs := step_inv C hC s op h
    simp only [run]
    generalize step C s op = o at hs
    cases o with
    | returned s' r => exact ih s' hs
    | fault f s' => exact hs
    | out_of_fuel s' => exact hs

/-! ## The offsets of the copies -/

/-- A message logged into an empty queue and then drained reaches the
endpoint verbatim: the bytes written by `cdc_process_task` are the message. -/
theorem log_then_drain (C fuel n : Nat) (env : LogEnv) (s : State)
    (tag format : List Char) (args : List va_arg)
    (hC : 1 ≤ C) (htake : env.take = true) (hmalloc : ∀ k, env.malloc_ok k = true)
    (hsend : ∀ k, env.send_ok k = true) (hinv : Inv s) (hempty : s.usb_cdc_rx_queue = [])
    (hfit : (render_output s tag format args).length < LOG_BUF_SIZE)
    (hfuel : (render_output s tag format args).length ≤ fuel)
    (hn : nchunks C (render_output s tag format args).length ≤ n) :
    ∃ s' s'', cdc_log C fuel env s tag format args
          = .returned s' (some (render_output s tag format args).length) ∧
      cdc_process_task n s' = .returned s'' none ∧
      s''.usb_cdc_rx_queue = [] ∧ s''.heap = [] ∧
      transport_bytes s''.trace
        = transport_bytes s'.trace ++ render_output s tag format args := by
  obtain ⟨s', h1, h2, h3, h4, h5, -⟩ := cdc_log_delivers C fuel env s tag format args hC htake
    (fun k _ => hmalloc k) (fun k _ => hsend k) hinv.1 hfuel
  have hinv' : Inv s' := by
    have := (cdc_log_inv C fuel env s tag format args hC hinv).1
    rw [h1] at this
    exact this
  obtain ⟨s'', g1, g2, g3, g4⟩ := process_loop_drains n (emit s' (.vTaskDelay 8000))
    (Inv_congr s' _ rfl rfl rfl hinv') (by
      show s'.usb_cdc_rx_queue.length ≤ n
      rw [h3, hempty]; simpa using hn)
  refine ⟨s', s'', h1, g1, g2, g3, ?_⟩
  have hev : process_events (emit s' (.vTaskDelay 8000)) = process_events s' :=
    funext fun c => by
      simp [process_events, chunk_bytes_congr (emit s' (.vTaskDelay 8000)) s' rfl c]
  have hq : (emit s' (.vTaskDelay 8000)).usb_cdc_rx_queue = s'.usb_cdc_rx_queue := rfl
  have ht : (emit s' (.vTaskDelay 8000)).trace = s'.trace ++ [.vTaskDelay 8000] := rfl
  rw [hev, hq, ht] at g4
  rw [g4, transport_bytes_append, transport_bytes_append, transport_bytes_append,
    transport_bytes_process, transport_bytes_idle, h2, hempty, List.nil_append, List.map_map]
  have hb := h4.trans (h5 hfit)
  simp only [Function.comp_def]
  rw [hb]
  simp [transport_bytes]

/-! ## A message that does not fit `log_buf` -/

/-- What the loop finds at `log_buf` when the formatted text has `LOG_BUF_SIZE`
characters or more: `vsnprintf` stored the first `LOG_BUF_SIZE - 1` of them and
the terminating NUL, and the `length` the loop uses reaches that NUL and the
bytes behind the buffer. -/
theorem read_truncated (s : State) (out buf : List Char)
    (hs : s.log_buf = snprintf_store buf LOG_BUF_SIZE out)
    (hlong : LOG_BUF_SIZE ≤ out.length) :
    read_log_buf s 0 out.length
      = out.take (LOG_BUF_SIZE - 1) ++ NUL ::
          (List.range (out.length - LOG_BUF_SIZE)).map s.past_log_buf := by
  have hB : LOG_BUF_SIZE = 2048 := rfl
  have htl : (out.take (LOG_BUF_SIZE - 1)).length = LOG_BUF_SIZE - 1 := by
    rw [List.length_take]; omega
  apply List.ext_getElem
  · simp only [read_log_buf, List.length_map, List.length_range, List.length_append,
      List.length_cons, htl]
    omega
  · intro i h1 h2
    have hi : i < out.length := by simpa [read_log_buf] using h1
    simp only [read_log_buf, List.getElem_map, List.getElem_range, Nat.zero_add, peek_log_buf]
    by_cases ha : i < LOG_BUF_SIZE - 1
    · have hb : i < LOG_BUF_SIZE := by omega
      rw [if_pos hb, hs, snprintf_store, List.getD_append _ _ _ _ (by omega),
        List.getElem_append_left (by omega)]
      rw [List.getD_eq_getElem _ _ (by omega)]
    · by_cases hb : i < LOG_BUF_SIZE
      · have hi' : i = LOG_BUF_SIZE - 1 := by omega
        rw [if_pos hb, hs, snprintf_store, List.getD_append_right _ _ _ _ (by omega),
          List.getElem_append_right (by omega)]
        simp [htl, hi']
      · rw [if_neg hb, List.getElem_append_right (by omega)]
        have e : i - (out.take (LOG_BUF_SIZE - 1)).length
            = (i - LOG_BUF_SIZE) + 1 := by omega
        simp only [e, List.getElem_cons_succ, List.getElem_map, List.getElem_range]

/-- Delivery of a message of `LOG_BUF_SIZE` characters or more: `cdc_log`
returns the untruncated length `L` and queues `nchunks C L` chunks, but the
bytes they hold are the first `LOG_BUF_SIZE - 1` characters of the message,
the terminating NUL and `L - LOG_BUF_SIZE` bytes from behind `log_buf`. -/
theorem cdc_log_delivers_truncated (C fuel : Nat) (env : LogEnv) (s : State)
    (tag format : List Char) (args : List va_arg)
    (hC : 1 ≤ C) (htake : env.take = true)
    (hmalloc : ∀ k, k < nchunks C (render_output s tag format args).length →
      env.malloc_ok k = true)
    (hsend : ∀ k, k < nchunks C (render_output s tag format args).length →
      env.send_ok k = true) (hheap : heap_fresh s)
    (hfuel : (render_output s tag format args).length ≤ fuel)
    (hlong : LOG_BUF_SIZE ≤ (render_output s tag format args).length) :
    ∃ s', cdc_log C fuel env s tag format args
          = .returned s' (some (render_output s tag format args).length) ∧
      s'.usb_cdc_rx_queue = s.usb_cdc_rx_queue ++
        (List.range (nchunks C (render_output s tag format args).length)).map
          (fun j => (⟨s.brk + j, min C ((render_output s tag format args).length - j * C)⟩
            : buf_len_t)) ∧
      ((List.range (nchunks C (render_output s tag format args).length)).map
          (fun j => chunk_bytes s'
            ⟨s.brk + j, min C ((render_output s tag format args).length - j * C)⟩)).flatten
        = (render_output s tag format args).take (LOG_BUF_SIZE - 1) ++ NUL ::
            (List.range ((render_output s tag format args).length - LOG_BUF_SIZE)).map
              s'.past_log_buf := by
  obtain ⟨s', h1, h2, -, h4, -, h6⟩ := cdc_log_delivers C fuel env s tag format args hC htake
    hmalloc hsend hheap hfuel
  exact ⟨s', h1, h2, h4.trans (read_truncated s' _ s.log_buf h6 hlong)⟩

/-! # The properties of the specification -/

/-- C1 fails on the code: `cdc_log("BG", "%s", msg)` with a `msg` of 2042
characters formats the 2048 characters `[BG] `, `msg`, line feed, and
`vsnprintf` returns 2048 although it stored 2047 of them and the terminating
NUL.  With `C = 64` and every enqueue succeeding, the call returns 2048 and
queues `⌈2048 / 64⌉ = 32` chunks, but the bytes of these chunks, concatenated
in enqueue order, end in the NUL of `log_buf[2047]` where the message has its
line feed: they are not the bytes of the message. -/
theorem cdc_log_long_message_ends_in_NUL :
    render_output State.init "BG".toList "%s".toList [.str (List.replicate 2042 'a')]
      = "[BG] ".toList ++ List.replicate 2042 'a' ++ [LF] ∧
    (render_output State.init "BG".toList "%s".toList
      [.str (List.replicate 2042 'a')]).length = 2048 ∧
    nchunks 64 2048 = 32 ∧
    ∃ s', cdc_log 64 2048 env_task State.init "BG".toList "%s".toList
            [.str (List.replicate 2042 'a')] = .returned s' (some 2048) ∧
      s'.usb_cdc_rx_queue.length = 32 ∧
      (s'.usb_cdc_rx_queue.map (chunk_bytes s')).flatten
        = "[BG] ".toList ++ List.replicate 2042 'a' ++ [NUL] ∧
      (s'.usb_cdc_rx_queue.map (chunk_bytes s')).flatten
        ≠ render_output State.init "BG".toList "%s".toList
            [.str (List.replicate 2042 'a')] := by
  have hmsg : ∀ c ∈ List.replicate 2042 'a', c ≠ NUL := by
    intro c hc
    rw [List.eq_of_mem_replicate hc]
    decide
  have hout := render_output_percent_s State.init (List.replicate 2042 'a') hmsg
  have hL : (render_output State.init "BG".toList "%s".toList
      [.str (List.replicate 2042 'a')]).length = 2048 := by
    rw [hout, List.length_append, List.length_append, List.length_replicate]
    decide
  have hn : nchunks 64 2048 = 32 := by decide
  obtain ⟨s', h1, h2, h3⟩ := cdc_log_delivers_truncated 64 2048 env_task State.init
    "BG".toList "%s".toList [.str (List.replicate 2042 'a')] (by decide) rfl
    (fun _ _ => rfl) (fun _ _ => rfl) ⟨by decide, by simp [State.init]⟩ (by rw [hL])
    (by rw [hL]; decide)
  rw [hL] at h1 h2 h3
  rw [hout] at h3
  have hpre : ("[BG] ".toList ++ List.replicate 2042 'a').length = LOG_BUF_SIZE - 1 := by
    rw [List.length_append, List.length_replicate]
    decide
  have hpast : 2048 - LOG_BUF_SIZE = 0 := by decide
  rw [List.take_left' hpre, hpast, List.range_zero, List.map_nil] at h3
  have hq : s'.usb_cdc_rx_queue.map (chunk_bytes s')
      = (List.range (nchunks 64 2048)).map
          (fun j => chunk_bytes s' ⟨State.init.brk + j, min 64 (2048 - j * 64)⟩) := by
    rw [h2]
    show List.map _ ([] ++ _) = _
    rw [List.nil_append, List.map_map]
    rfl
  have hflat : (s'.usb_cdc_rx_queue.map (chunk_bytes s')).flatten
      = "[BG] ".toList ++ List.replicate 2042 'a' ++ [NUL] := by
    rw [hq]
    exact h3
  refine ⟨hout, hL, hn, s', h1, ?_, hflat, ?_⟩
  · rw [h2, List.length_append, List.length_map, List.length_range, hn]
    rfl
  · intro h
    rw [hflat, hout] at h
    exact absurd (List.append_cancel_left h) (by decide)

/-- C2 fails on the code: `cdc_log("BG", "%s", msg)` with a `msg` of 2100
characters formats 2106 bytes, `vsnprintf` returns 2106 although `log_buf`
holds 2048, and the 33rd chunk is copied from `log_buf + 2048`, 58 bytes past
the end of `log_buf`. -/
theorem cdc_log_overruns_log_buf :
    (render_output State.init "BG".toList "%s".toList
        [.str (List.replicate 2100 'a')]).length = 2106 ∧
    Event.memcpy_log_buf 33 2048 58
      ∈ (cdc_log 64 2106 env_task State.init "BG".toList "%s".toList
          [.str (List.replicate 2100 'a')]).state.trace ∧
    ¬ (2048 + 58 ≤ LOG_BUF_SIZE) := by
  have hmsg : ∀ c ∈ List.replicate 2100 'a', c ≠ NUL := by
    intro c hc
    rw [List.eq_of_mem_replicate hc]
    decide
  have hout := render_output_percent_s State.init (List.replicate 2100 'a') hmsg
  have hL : (render_output State.init "BG".toList "%s".toList
      [.str (List.replicate 2100 'a')]).length = 2106 := by
    rw [hout, List.length_append, List.length_append, List.length_replicate]
    decide
  have hn : nchunks 64 2106 = 33 := by decide
  have hev := cdc_log_memcpy_events 64 2106 env_task State.init "BG".toList "%s".toList
    [.str (List.replicate 2100 'a')] (by decide) rfl (fun _ _ => rfl)
    ⟨by decide, by simp [State.init]⟩ (by rw [hL]) 32 (by rw [hL, hn]; decide)
  rw [hL] at hev
  refine ⟨hL, ?_, by decide⟩
  have e1 : State.init.brk + 32 = 33 := by decide
  have e2 : 32 * 64 = 2048 := by decide
  have e3 : min 64 (2106 - 2048) = 58 := by decide
  rw [e1, e2, e3] at hev
  exact hev

/-- C3 as stated fails: the call of `background_task` renders 22 bytes and
returns 22, not 23. -/
theorem bg_message_is_not_23_bytes :
    (∃ s', background_task_iter 64 64 env_task State.init = .returned s' (some 22)) ∧
    (¬ ∃ s', background_task_iter 64 64 env_task State.init = .returned s' (some 23)) ∧
    render_output State.init "BG".toList "Hello World %s".toList [.str "dewe".toList]
      = BG_TEXT ∧
    BG_TEXT.length ≠ 23 := by
  have h := cdc_log_delivers 64 64 env_task (emit State.init (.vTaskDelay 1000)) "BG".toList
    "Hello World %s".toList [.str "dewe".toList] (by decide) rfl (fun _ _ => rfl)
    (fun _ _ => rfl) ⟨by decide, by simp [State.init, emit]⟩ (by decide)
  obtain ⟨s', hs', -⟩ := h
  have hL : (render_output (emit State.init (.vTaskDelay 1000)) "BG".toList
      "Hello World %s".toList [.str "dewe".toList]).length = 22 := by decide
  rw [hL] at hs'
  refine ⟨⟨s', hs'⟩, ?_, by decide, by decide⟩
  rintro ⟨t, ht⟩
  have : background_task_iter 64 64 env_task State.init = .returned s' (some 22) := hs'
  rw [this] at ht
  simp at ht

/-- C3, amended.  The call `cdc_log("BG", "Hello World %s", "dewe")` of
`background_task`, with the mutex free, the allocation and the enqueue
succeeding and an item capacity above the message length, renders exactly
`"[BG] Hello World dewe\n"`, which is 22 bytes long, returns 22, and appends
to the queue one chunk of 22 bytes holding that text. -/
theorem background_task_log (C fuel : Nat) (env : LogEnv) (s : State)
    (hC : 22 < C) (htake : env.take = true) (hmalloc : env.malloc_ok 0 = true)
    (hsend : env.send_ok 0 = true) (hheap : heap_fresh s) (hfuel : 22 ≤ fuel) :
    render_output (emit s (.vTaskDelay 1000)) "BG".toList "Hello World %s".toList
        [.str "dewe".toList] = "[BG] Hello World dewe\n".toList ∧
    "[BG] Hello World dewe\n".toList.length = 22 ∧
    ∃ s', background_task_iter C fuel env s = .returned s' (some 22) ∧
      s'.usb_cdc_rx_queue = s.usb_cdc_rx_queue ++ [⟨s.brk, 22⟩] ∧
      chunk_bytes s' ⟨s.brk, 22⟩ = "[BG] Hello World dewe\n".toList ∧
      s'.log_buf.take 23 = "[BG] Hello World dewe\n".toList ++ [NUL] := by
  have hout := render_output_bg (emit s (.vTaskDelay 1000))
  have hL : (render_output (emit s (.vTaskDelay 1000)) "BG".toList "Hello World %s".toList
      [.str "dewe".toList]).length = 22 := by rw [hout]; exact BG_TEXT_length
  have hn : nchunks C 22 = 1 := nchunks_small C 22 (by omega) (by omega)
  refine ⟨hout, by decide, ?_⟩
  have h := cdc_log_delivers C fuel env (emit s (.vTaskDelay 1000)) "BG".toList
    "Hello World %s".toList [.str "dewe".toList] (by omega) htake
    (by rw [hL, hn]; intro k hk; have : k = 0 := by omega
        subst this; exact hmalloc)
    (by rw [hL, hn]; intro k hk; have : k = 0 := by omega
        subst this; exact hsend)
    hheap (by rw [hL]; exact hfuel)
  obtain ⟨s', hs', hq, -, hb1, hb2, hlog⟩ := h
  have hb := hb1.trans (hb2 (by rw [hL]; decide))
  rw [hL] at hs' hq hb
  rw [hn] at hq hb
  rw [hout] at hb
  rw [hout] at hlog
  have hm : min C 22 = 22 := by omega
  refine ⟨s', hs', ?_, ?_, ?_⟩
  · simpa [show List.range 1 = [0] from rfl, hm, emit] using hq
  · simpa [show List.range 1 = [0] from rfl, hm, emit, BG_TEXT] using hb
  · rw [hlog]
    simp [snprintf_store, BG_TEXT, LOG_BUF_SIZE]

/-- Witness of C3: the call of `background_task` at reset, with items of 64 bytes. -/
theorem background_task_log_witness :
    render_output (emit State.init (.vTaskDelay 1000)) "BG".toList "Hello World %s".toList
        [.str "dewe".toList] = "[BG] Hello World dewe\n".toList ∧
    "[BG] Hello World dewe\n".toList.length = 22 ∧
    ∃ s', background_task_iter 64 64 env_task State.init = .returned s' (some 22) ∧
      s'.usb_cdc_rx_queue = State.init.usb_cdc_rx_queue ++ [⟨State.init.brk, 22⟩] ∧
      chunk_bytes s' ⟨State.init.brk, 22⟩ = "[BG] Hello World dewe\n".toList ∧
      s'.log_buf.take 23 = "[BG] Hello World dewe\n".toList ++ [NUL] :=
  background_task_log 64 64 env_task State.init (by decide) rfl rfl rfl
    ⟨by decide, by simp [State.init]⟩ (by decide)

/-- C5.  When `xSemaphoreTake` does not return `pdTRUE`, `cdc_log` returns at
once: the failed take is the only primitive it calls (no `malloc`, no send, no
`xSemaphoreGive`), and the queue, the heap, `format_buf` and `log_buf` are
unchanged. -/
theorem cdc_log_lock_unavailable (C fuel : Nat) (env : LogEnv) (s : State)
    (tag format : List Char) (args : List va_arg) (htake : env.take = false) :
    ∃ s', cdc_log C fuel env s tag format args = .returned s' none ∧
      s'.usb_cdc_rx_queue = s.usb_cdc_rx_queue ∧ s'.heap = s.heap ∧ s'.brk = s.brk ∧
      s'.format_buf = s.format_buf ∧ s'.log_buf = s.log_buf ∧
      s'.trace = s.trace ++ [.xSemaphoreTake MAX_DELAY false] := by
  refine ⟨emit s (.xSemaphoreTake MAX_DELAY false), ?_, rfl, rfl, rfl, rfl, rfl, rfl⟩
  simp [cdc_log, htake]

/-- Witness of C5: a call at reset while another task holds the mutex. -/
theorem cdc_log_lock_unavailable_witness :
    ∃ s', cdc_log 64 64 ⟨false, false, fun _ => true, fun _ => true, fun _ => false⟩
            State.init "BG".toList "Hello World %s".toList [.str "dewe".toList]
          = .returned s' none ∧
      s'.usb_cdc_rx_queue = State.init.usb_cdc_rx_queue ∧ s'.heap = State.init.heap ∧
      s'.brk = State.init.brk ∧
      s'.format_buf = State.init.format_buf ∧ s'.log_buf = State.init.log_buf ∧
      s'.trace = State.init.trace ++ [.xSemaphoreTake MAX_DELAY false] :=
  cdc_log_lock_unavailable 64 64 ⟨false, false, fun _ => true, fun _ => true, fun _ => false⟩
    State.init "BG".toList "Hello World %s".toList [.str "dewe".toList] rfl

/-- C6 as stated fails: with a failing `malloc` both producers stop at a store
through the null pointer instead of dropping the chunk. -/
theorem malloc_failure_faults_at_reset :
    (cdc_log 64 64 ⟨true, false, fun _ => false, fun _ => true, fun _ => false⟩ State.init
        "BG".toList "Hello World %s".toList [.str "dewe".toList]).fault_of
      = some (.null_store 22) ∧
    (tinyusb_cdc_rx_callback 64 ⟨some ['a'], false, false, true, false⟩ State.init).fault_of
      = some (.null_store 1) := by
  decide

/-- C6, amended.  Neither producer checks the result of `malloc`.  When the
`malloc` of a chunk of at least one byte returns `NULL`, the producer copies
through the null pointer and stops there with a memory error: in `cdc_log`
after the chunks before it were handled as usual, with no enqueue attempt for
this chunk or a later one and the mutex not given back; in
`tinyusb_cdc_rx_callback` with the queue and the heap unchanged.  Only for an
empty read does the callback go on, and it then posts an item whose storage is
the null pointer. -/
theorem malloc_failure_is_not_handled :
    (∀ (C fuel : Nat) (env : LogEnv) (s : State) (tag format : List Char)
        (args : List va_arg) (m0 : Nat),
      1 ≤ C → env.take = true → heap_fresh s →
      (render_output s tag format args).length ≤ fuel →
      m0 < nchunks C (render_output s tag format args).length →
      (∀ j, j < m0 → env.malloc_ok j = true) → env.malloc_ok m0 = false →
      ∃ s', cdc_log C fuel env s tag format args
            = .fault (.null_store (min C ((render_output s tag format args).length - m0 * C)))
                s' ∧
        s'.trace = s.trace ++ .xSemaphoreTake MAX_DELAY true ::
          ((List.range m0).flatMap (fun j => chunk_events env j
              ⟨s.brk + j, min C ((render_output s tag format args).length - j * C)⟩ (j * C))
            ++ [.malloc (min C ((render_output s tag format args).length - m0 * C)) 0,
                .memcpy_log_buf 0 (m0 * C)
                  (min C ((render_output s tag format args).length - m0 * C))]) ∧
        posts s'.trace = posts s.trace ++ (List.range m0).map
          (fun j => ((⟨s.brk + j, min C ((render_output s tag format args).length - j * C)⟩
            : buf_len_t), env.send_ok j)) ∧
        s'.usb_cdc_rx_queue = s.usb_cdc_rx_queue ++ ((List.range m0).filter env.send_ok).map
          (fun j => (⟨s.brk + j, min C ((render_output s tag format args).length - j * C)⟩
            : buf_len_t))) ∧
    (∀ (C : Nat) (env : RxEnv) (s : State) (data : List Char),
      env.read = some data → data ≠ [] → env.malloc_ok = false →
      ∃ s', tinyusb_cdc_rx_callback C env s = .fault (.null_store data.length) s' ∧
        s'.trace = s.trace ++ [.tinyusb_cdcacm_read C (some data), .malloc data.length 0,
          .memcpy_buf 0 data.length] ∧
        s'.usb_cdc_rx_queue = s.usb_cdc_rx_queue ∧ s'.heap = s.heap) ∧
    (∀ (C : Nat) (env : RxEnv) (s : State),
      env.read = some [] → env.malloc_ok = false →
      ∃ s', tinyusb_cdc_rx_callback C env s = .returned s' none ∧
        posts s'.trace = posts s.trace ++ [(⟨0, 0⟩, env.send_ok)] ∧
        s'.usb_cdc_rx_queue = s.usb_cdc_rx_queue ++ (if env.send_ok then [⟨0, 0⟩] else []) ∧
        s'.heap = s.heap) := by
  refine ⟨?_, ?_, ?_⟩
  · intro C fuel env s tag format args m0 hC htake hheap hfuel hm0 hok hfail
    rw [cdc_log_malloc_fails C fuel env s tag format args m0 hC htake hheap hfuel hm0 hok hfail]
    refine ⟨_, rfl, ?_, ?_, ?_⟩
    · simp [emit, after_chunks, cdc_log_render, chunk_item, chunk_len]
    · simp only [emit, after_chunks, Nat.zero_add, posts_append, posts_flatMap,
        posts_chunk_events, flatMap_singleton_map]
      simp [chunk_item, chunk_len, cdc_log_render, emit, posts_append, posts]
    · simp only [emit, after_chunks, Nat.zero_add, flatMap_if_filter]
      simp [chunk_item, chunk_len, cdc_log_render, emit]
  · intro C env s data hr hd hm
    obtain ⟨s', h1, h2, h3, h4, -⟩ := rx_callback_malloc_fails C env s data hr hd hm
    exact ⟨s', h1, h2, h3, h4⟩
  · intro C env s hr hm
    obtain ⟨s', h1, h2, h3, h4, -⟩ := rx_callback_malloc_fails_empty C env s hr hm
    exact ⟨s', h1, h2, h3, h4⟩

/-- Witness of C6: at reset, `cdc_log` with items of 8 bytes whose second
`malloc` fails, a callback that reads one byte and one that reads none. -/
theorem malloc_failure_is_not_handled_witness :
    (∃ s', cdc_log 8 22 ⟨true, false, fun k => decide (k ≠ 1), fun _ => true, fun _ => false⟩
            State.init "BG".toList "Hello World %s".toList [.str "dewe".toList]
          = .fault (.null_store 8) s' ∧
        posts s'.trace = [(⟨1, 8⟩, true)] ∧ s'.usb_cdc_rx_queue = [⟨1, 8⟩]) ∧
    (∃ s', tinyusb_cdc_rx_callback 8 ⟨some ['a'], true, false, true, false⟩ State.init
          = .fault (.null_store 1) s' ∧ s'.usb_cdc_rx_queue = []) ∧
    (∃ s', tinyusb_cdc_rx_callback 8 ⟨some [], true, false, true, false⟩ State.init
          = .returned s' none ∧ s'.usb_cdc_rx_queue = [⟨0, 0⟩]) := by
  have hL : (render_output State.init "BG".toList "Hello World %s".toList
      [.str "dewe".toList]).length = 22 := by decide
  refine ⟨?_, ?_, ?_⟩
  · obtain ⟨s', h1, -, h3, h4⟩ := malloc_failure_is_not_handled.1 8 22
      ⟨true, false, fun k => decide (k ≠ 1), fun _ => true, fun _ => false⟩
      State.init "BG".toList "Hello World %s".toList [.str "dewe".toList] 1
      (by decide) rfl ⟨by decide, by simp [State.init]⟩ (by decide) (by decide)
      (by intro j hj; have : j = 0 := by omega
          subst this; rfl) rfl
    rw [hL] at h1 h3 h4
    exact ⟨s', h1, by rw [h3]; decide, by rw [h4]; decide⟩
  · obtain ⟨s', h1, -, h3, -⟩ := malloc_failure_is_not_handled.2.1 8
      ⟨some ['a'], true, false, true, false⟩ State.init ['a'] rfl (by decide) rfl
    exact ⟨s', h1, h3⟩
  · obtain ⟨s', h1, -, h3, -⟩ := malloc_failure_is_not_handled.2.2 8
      ⟨some [], true, false, true, false⟩ State.init rfl rfl
    exact ⟨s', h1, h3⟩

/-- C7.  In a state that satisfies the ownership invariant `Inv` (the live
blocks are exactly the storage of the queued chunks) every operation, a call
of `cdc_log`, a call of `tinyusb_cdc_rx_callback` or an iteration of
`cdc_process_task`, ends in a state that satisfies it again, and never stops
at a double or invalid `free` nor at a read of freed storage (the one memory
error possible is the store through a null `malloc` result).  In particular
any series of callbacks against a full queue leaves the heap and the queue as
they were. -/
theorem live_buffers_are_the_queued_buffers (C : Nat) (s : State) (hC : 1 ≤ C)
    (hinv : Inv s) :
    s.heap.map Prod.fst
      = (s.usb_cdc_rx_queue.filter (fun c => c.buf != 0)).map buf_len_t.buf ∧
    (∀ op, Inv (step C s op).state ∧
      ∀ f, (step C s op).fault_of = some f → ∃ n, f = .null_store n) ∧
    (s.usb_cdc_rx_queue.length = QUEUE_LENGTH → ∀ envs,
      (rx_storm C envs s).state.heap = s.heap ∧
      (rx_storm C envs s).state.usb_cdc_rx_queue = s.usb_cdc_rx_queue) := by
  refine ⟨?_, ?_, fun hfull envs => rx_storm_full C envs s hinv hfull⟩
  · rw [← hinv.2.2.1, List.map_map]
    rfl
  · intro op
    cases op with
    | log fuel env tag format args => exact cdc_log_inv C fuel env s tag format args hC hinv
    | rx env => exact rx_callback_inv C env s hinv
    | process =>
      cases hq : s.usb_cdc_rx_queue with
      | nil =>
        have hiter : cdc_process_task_iter s
            = .returned (emit s (.xQueueReceive MAX_DELAY none)) none := by
          simp [cdc_process_task_iter, hq]
        simp only [step, hiter, Outcome.state, Outcome.fault_of]
        exact ⟨Inv_congr s _ rfl rfl rfl hinv, by simp⟩
      | cons c rest =>
        obtain ⟨s1, hiter, hinv1, -⟩ := process_iter_ok s c rest hinv hq
        simp only [step, hiter, Outcome.state, Outcome.fault_of]
        exact ⟨hinv1, by simp⟩

/-- Witness of C7: the operations at reset, and 10000 callbacks of 10 bytes
each against a full queue. -/
theorem live_buffers_are_the_queued_buffers_witness :
    Inv (step 8 State.init (.rx ⟨some ['a'], true, true, false, false⟩)).state ∧
    Inv (step 8 State.init
      (.log 22 env_task "BG".toList "Hello World %s".toList [.str "dewe".toList])).state ∧
    Inv (step 8 state_after_log .process).state ∧
    state_full.usb_cdc_rx_queue.length = QUEUE_LENGTH ∧
    (rx_storm 64 (List.replicate 10000
        ⟨some (List.replicate 10 'x'), true, true, true, false⟩) state_full).state.heap
      = state_full.heap :=
  ⟨((live_buffers_are_the_queued_buffers 8 State.init (by decide) Inv_init).2.1 _).1,
   ((live_buffers_are_the_queued_buffers 8 State.init (by decide) Inv_init).2.1 _).1,
   ((live_buffers_are_the_queued_buffers 8 state_after_log (by decide)
      Inv_state_after_log).2.1 _).1,
   state_full_is_full,
   ((live_buffers_are_the_queued_buffers 64 state_full (by decide) Inv_state_full).2.2
      state_full_is_full _).1⟩

/-- C8 fails on the code: called from an interrupt handler, `cdc_log` posts
with `xQueueSendFromISR` but first takes the mutex with `xSemaphoreTake` and
the tick count `0xffffffff`, a blocking call. -/
theorem cdc_log_blocks_in_isr :
    env_isr.in_isr = true ∧
    (cdc_log 64 64 env_isr State.init "BG".toList "Hello World %s".toList
        [.str "dewe".toList]).state.trace
      = [.xSemaphoreTake 0xffffffff true, .malloc 22 1, .memcpy_log_buf 1 0 22,
         .xQueueSendFromISR ⟨1, 22⟩ true, .xSemaphoreGive] ∧
    (Event.xSemaphoreTake 0xffffffff true).blocking = true := by
  decide

/-- C9.  From a state that satisfies the ownership invariant (every queued
chunk owns its bytes), `cdc_process_task` run for at least as many iterations
as the queue has chunks returns with the queue and the heap empty: after its
initial delay each iteration receives the oldest chunk, writes its `len`
bytes, flushes and frees its storage, once per chunk and in enqueue order, so
the bytes handed to the endpoint are the concatenation of the chunks' bytes in
enqueue order. -/
theorem cdc_process_task_drains (s : State) (n : Nat) (hinv : Inv s)
    (hn : s.usb_cdc_rx_queue.length ≤ n) :
    ∃ s', cdc_process_task n s = .returned s' none ∧
      s'.usb_cdc_rx_queue = [] ∧ s'.heap = [] ∧
      s'.trace = s.trace ++ .vTaskDelay 8000 ::
        (s.usb_cdc_rx_queue.flatMap (fun c =>
            [.xQueueReceive MAX_DELAY (some c), .tinyusb_cdcacm_write_queue (chunk_bytes s c),
             .tinyusb_cdcacm_write_flush 0, .free c.buf]) ++
          List.replicate (n - s.usb_cdc_rx_queue.length) (.xQueueReceive MAX_DELAY none)) ∧
      transport_bytes s'.trace
        = transport_bytes s.trace ++ (s.usb_cdc_rx_queue.map (chunk_bytes s)).flatten ∧
      ∀ c ∈ s.usb_cdc_rx_queue, (chunk_bytes s c).length = c.len := by
  obtain ⟨s', h1, h2, h3, h4⟩ := process_loop_drains n (emit s (.vTaskDelay 8000))
    (Inv_congr s _ rfl rfl rfl hinv) hn
  have hev : process_events (emit s (.vTaskDelay 8000)) = process_events s :=
    funext fun c => by
      simp [process_events, chunk_bytes_congr (emit s (.vTaskDelay 8000)) s rfl c]
  have hq : (emit s (.vTaskDelay 8000)).usb_cdc_rx_queue = s.usb_cdc_rx_queue := rfl
  have ht : (emit s (.vTaskDelay 8000)).trace = s.trace ++ [.vTaskDelay 8000] := rfl
  rw [hev, hq, ht] at h4
  refine ⟨s', h1, h2, h3, ?_, ?_, fun c hc => chunk_bytes_length s hinv c hc⟩
  · rw [h4]
    simp only [List.append_assoc, List.cons_append, List.nil_append]
    rfl
  · rw [h4, transport_bytes_append, transport_bytes_append, transport_bytes_append,
      transport_bytes_process, transport_bytes_idle]
    simp [transport_bytes]

/-- Witness of C9: the three chunks queued by the call of `background_task`
are written as the 22 bytes of its message. -/
theorem cdc_process_task_drains_witness :
    ∃ s', cdc_process_task 3 state_after_log = .returned s' none ∧
      s'.usb_cdc_rx_queue = [] ∧ s'.heap = [] ∧
      transport_bytes s'.trace = "[BG] Hello World dewe\n".toList := by
  obtain ⟨s', h1, h2, h3, -, h5, -⟩ :=
    cdc_process_task_drains state_after_log 3 Inv_state_after_log (by decide)
  refine ⟨s', h1, h2, h3, ?_⟩
  rw [h5]
  decide

end TusbCdc
